import Mathlib

/-!
Verification of the histogram-tree core of `histo.py` (ne2scan_histo).

The Python source is shallowly embedded below.  Nodes live in an arena
(a `List HistoNode`); a node's identity is its index in the arena, the
root is index 0.  Python object references become arena indices, the
memoization cache of `find` becomes an association list from path
strings to node indices, and exceptions become explicit error results.
The recursive memoized `find` can fail to terminate in the source (for
example on absolute paths, where `os.path.split` returns its argument
unchanged); it is embedded with an explicit fuel argument, where fuel
exhaustion (`FindRes.diverge`) models the unbounded recursion, and
`FIND_FUEL` (length of the path plus one) is shown to be enough fuel
for every terminating execution path.
-/

namespace NeHisto

/-- `BIN_DAYS` from histo.py: thresholds, in days, for the histogram bins.
Ages are embedded as rationals. -/
def BIN_DAYS : List ℚ := [1, 5, 7, 14, 30, 60, 90]

/-- `EMPTY_HISTO_DATA` from histo.py: the initial bin counters of a node. -/
def EMPTY_HISTO_DATA : List ℕ := [0, 0, 0, 0, 0, 0, 0, 0]

/-- The bin-selection loop inside `HistoTree.increment`:
`bin_num = 0; for days in BIN_DAYS: if age >= days: bin_num += 1 else: break`. -/
def binLoop (age : ℚ) : List ℚ → ℕ → ℕ
  | [], acc => acc
  | d :: rest, acc => if d ≤ age then binLoop age rest (acc + 1) else acc

/-- The bucket index `increment` computes for a given age. -/
def binFor (age : ℚ) : ℕ := binLoop age BIN_DAYS 0

/-- One node of the histogram tree (`HistoTree.HistoNode`).  `parent` and the
second components of `children` are arena indices. -/
structure HistoNode where
  name : String
  parent : Option ℕ
  children : List (String × ℕ)
  data : List ℕ
deriving DecidableEq, Repr

/-- `HistoNode.get_child`: dictionary lookup of a child by name
(`self.children.get(name)`, `None` when absent). -/
def HistoNode.getChild (n : HistoNode) (s : String) : Option ℕ :=
  n.children.lookup s

/-- Assignment `d[k] = v` on an association list: replace the binding of an
existing key in place, otherwise append a fresh binding.  This models both
`self.children[child.name] = child` in `add_child` and
`cached_results[args] = result` in `memoize`. -/
def setKey (l : List (String × ℕ)) (s : String) (v : ℕ) : List (String × ℕ) :=
  match l with
  | [] => [(s, v)]
  | (k, w) :: rest => if k = s then (s, v) :: rest else (k, w) :: setKey rest s v

/-- The histogram tree: the arena of nodes (index 0 is the root created in
`__init__`) together with the memoization cache of `find`. -/
structure HistoTree where
  nodes : List HistoNode
  cache : List (String × ℕ)
deriving DecidableEq, Repr

/-- A freshly constructed `HistoTree()`: just the `'ROOT'` node, empty cache. -/
def initTree : HistoTree :=
  { nodes := [{ name := "ROOT", parent := none, children := [], data := EMPTY_HISTO_DATA }],
    cache := [] }

/-- Default node used to totalize arena indexing (never reached on the
well-formed states the theorems quantify over). -/
def dummyNode : HistoNode := { name := "", parent := none, children := [], data := [] }

/-- The node stored at arena index `i`. -/
def nodeAt (ns : List HistoNode) (i : ℕ) : HistoNode := ns.getD i dummyNode

/-- `str.split('/')` on a character list: split at every separator, keeping
empty pieces (`''.split('/') == ['']`). -/
def splitSep : List Char → List (List Char)
  | [] => [[]]
  | c :: rest =>
    if c = '/' then [] :: splitSep rest
    else
      match splitSep rest with
      | [] => [c] :: []
      | g :: gs => (c :: g) :: gs

/-- ASCII whitespace, the characters `str.strip()` removes. -/
def isPySpace (c : Char) : Bool :=
  c == ' ' || c == '\t' || c == '\n' || c == '\r' || c == '\x0b' || c == '\x0c'

/-- `str.strip()`: drop leading and trailing whitespace. -/
def pyStrip (l : List Char) : List Char :=
  ((l.dropWhile isPySpace).reverse.dropWhile isPySpace).reverse

/-- The components of `full_path_name.strip().split(os.sep)` in `insert`. -/
def pathComponents (p : String) : List String :=
  (splitSep (pyStrip p.data)).map (fun l => String.mk l)

/-- Exceptions `insert` can raise: `InvalidPathError` on a bad prefix, and a
Python `IndexError` when `dirs[1]` is evaluated on a single-element split. -/
inductive InsertErr
  | invalidPath
  | indexError
deriving DecidableEq, Repr

/-- One creation step of `insert`: `new_node = self.HistoNode(one_dir, node);
node.add_child(new_node)` — append the fresh node to the arena and bind it
in the parent's child map. -/
def insertStep (ns : List HistoNode) (i : ℕ) (d : String) : List HistoNode :=
  (ns ++ [({ name := d, parent := some i, children := [],
             data := EMPTY_HISTO_DATA } : HistoNode)]).set i
    { nodeAt ns i with children := setKey (nodeAt ns i).children d ns.length }

/-- The walk/create loop of `insert`: follow an existing child or create a
new node via `insertStep` (the new node's index is the old arena length). -/
def insertLoop : List HistoNode → ℕ → List String → List HistoNode
  | ns, _, [] => ns
  | ns, i, d :: rest =>
    match (nodeAt ns i).getChild d with
    | some j => insertLoop ns j rest
    | none => insertLoop (insertStep ns i d) ns.length rest

/-- `HistoTree.insert`.  The source evaluates `dirs[0] != '.'` first (raising
`InvalidPathError` on mismatch) and only then `dirs[1]`, which raises
`IndexError` when the split has a single element. -/
def HistoTree.insert (t : HistoTree) (p : String) : Except InsertErr HistoTree :=
  match pathComponents p with
  | [] => .error .indexError
  | d0 :: rest0 =>
    if d0 ≠ "." then .error .invalidPath
    else
      match rest0 with
      | [] => .error .indexError
      | d1 :: rest =>
        if d1 ≠ "ROOT" then .error .invalidPath
        else .ok { t with nodes := insertLoop t.nodes 0 rest }

/-- `os.path.split` (posixpath) on a character list: split after the last
`'/'`; strip trailing slashes from the head unless the head is all slashes. -/
def splitChars (p : List Char) : List Char × List Char :=
  let r := p.reverse
  let tl := (r.takeWhile (fun c => !(c == '/'))).reverse
  let hd := (r.dropWhile (fun c => !(c == '/'))).reverse
  let hd' := if hd ≠ [] ∧ ¬ hd.all (fun c => c == '/')
    then (hd.reverse.dropWhile (fun c => c == '/')).reverse
    else hd
  (hd', tl)

/-- `os.path.split` on strings. -/
def osPathSplit (p : String) : String × String :=
  (String.mk (splitChars p.data).1, String.mk (splitChars p.data).2)

/-- Result of `find`: `diverge` models the unbounded recursion (fuel ran
out), `invalid` the `InvalidPathError` raise, `notFound` a `None` return,
`found i` a returned node reference. -/
inductive FindRes
  | diverge
  | invalid
  | notFound
  | found (i : ℕ)
deriving DecidableEq, Repr

/-- The body of `find` without memoization: recursive `os.path.split`-based
lookup.  Used as the reference semantics the memoized version is compared
against. -/
def findPure : ℕ → List HistoNode → String → FindRes
  | 0, _, _ => .diverge
  | fuel + 1, ns, p =>
    let dirPath := (osPathSplit p).1
    let lastPart := (osPathSplit p).2
    if dirPath = "./ROOT" then
      match (nodeAt ns 0).getChild lastPart with
      | some j => .found j
      | none => .notFound
    else if dirPath = "" then .invalid
    else
      match findPure fuel ns dirPath with
      | .found j =>
        match (nodeAt ns j).getChild lastPart with
        | some k => .found k
        | none => .notFound
      | r => r

/-- The memoized `find` of the source (`@memoize` applied to the recursive
implementation): consult the cache first; store the result only when it is
not `None`; exceptions escape without being cached.  Returns the result
together with the updated cache. -/
def findMemo : ℕ → List HistoNode → List (String × ℕ) → String →
    FindRes × List (String × ℕ)
  | 0, _, c, _ => (.diverge, c)
  | fuel + 1, ns, c, p =>
    match c.lookup p with
    | some v => (.found v, c)
    | none =>
      let dirPath := (osPathSplit p).1
      let lastPart := (osPathSplit p).2
      if dirPath = "./ROOT" then
        match (nodeAt ns 0).getChild lastPart with
        | some j => (.found j, setKey c p j)
        | none => (.notFound, c)
      else if dirPath = "" then (.invalid, c)
      else
        match findMemo fuel ns c dirPath with
        | (.found j, c1) =>
          match (nodeAt ns j).getChild lastPart with
          | some k => (.found k, setKey c1 p k)
          | none => (.notFound, c1)
        | (r, c1) => (r, c1)

/-- Fuel sufficient for every terminating execution of `find` (the head
returned by `os.path.split` is strictly shorter than its argument except in
the all-slash case, which never terminates). -/
def FIND_FUEL (p : String) : ℕ := p.length + 1

/-- Errors of `increment`.  In the source both `invalidPath` (propagated out
of `find`) and `notFound` (the raise after `find` returns `None`) are the
same exception class `InvalidPathError`; they are distinguished here by
raise site.  `diverge` models the unbounded recursion of `find` on paths
whose `os.path.split` head never shrinks. -/
inductive IncErr
  | invalidPath
  | notFound
  | diverge
deriving DecidableEq, Repr

/-- `HistoTree.increment`: look the node up (through the memoized `find`,
whose cache update survives even when an exception is raised), classify the
age, and bump the selected counter. -/
def HistoTree.increment (t : HistoTree) (p : String) (age : ℚ) :
    Except IncErr Unit × HistoTree :=
  match findMemo (FIND_FUEL p) t.nodes t.cache p with
  | (.diverge, c) => (.error .diverge, { t with cache := c })
  | (.invalid, c) => (.error .invalidPath, { t with cache := c })
  | (.notFound, c) => (.error .notFound, { t with cache := c })
  | (.found j, c) =>
    let b := binFor age
    let nd := nodeAt t.nodes j
    (.ok (),
     { nodes := t.nodes.set j { nd with data := nd.data.set b (nd.data.getD b 0 + 1) },
       cache := c })

/-- The accumulator loop of `full_path_name`: walk parent references,
prepending `name + '/'`. -/
def fullPathLoop : ℕ → List HistoNode → ℕ → String → String
  | 0, _, _, acc => acc
  | fuel + 1, ns, i, acc =>
    match (nodeAt ns i).parent with
    | none => acc
    | some pIdx => fullPathLoop fuel ns pIdx ((nodeAt ns pIdx).name ++ "/" ++ acc)

/-- `HistoTree.full_path_name`. -/
def HistoTree.fullPathName (t : HistoTree) (i : ℕ) : String :=
  fullPathLoop t.nodes.length t.nodes i (nodeAt t.nodes i).name

/-- Strict lexicographic order on character lists (Python 2 compares
strings bytewise; on the code points this is the same order). -/
def charsLt : List Char → List Char → Bool
  | [], [] => false
  | [], _ :: _ => true
  | _ :: _, [] => false
  | a :: as, b :: bs => if a < b then true else if a = b then charsLt as bs else false

/-- Strict lexicographic order on strings. -/
def keyLt (a b : String) : Bool := charsLt a.data b.data

/-- Reflexive lexicographic order on strings. -/
def keyLe (a b : String) : Bool := keyLt a b || a == b

/-- Insert a string into an already sorted list (ascending). -/
def insertSorted (s : String) : List String → List String
  | [] => [s]
  | x :: xs => if keyLe s x then s :: x :: xs else x :: insertSorted s xs

/-- Ascending insertion sort; models `child_keys.sort()` (the keys are
distinct, so stability is irrelevant). -/
def sortKeys : List String → List String
  | [] => []
  | x :: xs => insertSorted x (sortKeys xs)

/-- `child_keys = node.children.keys(); child_keys.sort()` in
`traverse_next`. -/
def childKeysSorted (nd : HistoNode) : List String :=
  sortKeys (nd.children.map Prod.fst)

/-- The child references `traverse_next` appends to the traversal queue, in
sorted-key order (`node.children[key]` for each sorted key). -/
def sortedChildIds (ns : List HistoNode) (i : ℕ) : List ℕ :=
  (childKeysSorted (nodeAt ns i)).filterMap (fun s => (nodeAt ns i).children.lookup s)

/-- The node-index sequence produced by `traverse_start` followed by repeated
`traverse_next` until the queue is empty: pop the front, append the children
in ascending key order. -/
def bfs (ns : List HistoNode) : ℕ → List ℕ → List ℕ
  | 0, _ => []
  | _ + 1, [] => []
  | fuel + 1, i :: q => i :: bfs ns fuel (q ++ sortedChildIds ns i)

/-- The sequence of node indices the traversal emits. -/
def HistoTree.traverseIds (t : HistoTree) : List ℕ :=
  bfs t.nodes t.nodes.length [0]

/-- The `(full_path, data)` rows the traversal emits. -/
def HistoTree.traverseRows (t : HistoTree) : List (String × List ℕ) :=
  t.traverseIds.map (fun i => (t.fullPathName i, (nodeAt t.nodes i).data))

/-- `self.data[i] += child.data[i] for i in range(len(self.data))`. -/
def addCounts (p c : List ℕ) : List ℕ :=
  (List.range p.length).map (fun i => p.getD i 0 + c.getD i 0)

/-- `HistoNode.summarize_histo_data`: recursively summarize every child, then
add the child's counters into this node's counters. -/
def summarizeNode : ℕ → List HistoNode → ℕ → List HistoNode
  | 0, ns, _ => ns
  | fuel + 1, ns, i =>
    ((nodeAt ns i).children.map Prod.snd).foldl
      (fun acc j =>
        let acc1 := summarizeNode fuel acc j
        acc1.set i { nodeAt acc1 i with
                      data := addCounts (nodeAt acc1 i).data (nodeAt acc1 j).data })
      ns

/-- `HistoTree.summarize_histo_data`: the aggregation pass, started at the
root. -/
def HistoTree.summarize (t : HistoTree) : HistoTree :=
  { t with nodes := summarizeNode (t.nodes.length + 1) t.nodes 0 }

/-- Tree state after folding a list of `insert` calls over a fresh tree,
ignoring (skipping) rejected paths, as the ingestion caller does. -/
def buildTree (ps : List String) : HistoTree :=
  ps.foldl (fun t p => match t.insert p with | .ok t' => t' | .error _ => t) initTree

/-- The counters of the node at index `i`. -/
def dataAt (ns : List HistoNode) (i : ℕ) : List ℕ := (nodeAt ns i).data

/-- Structural well-formedness of the arena, satisfied by every state the
program can build: the root exists at index 0 with no parent and name
`"ROOT"`; every child entry points past its parent to a node carrying the
matching parent reference and name; every non-root node is registered in its
parent's child map; child keys are distinct; every counter vector has the
eight slots of `EMPTY_HISTO_DATA`. -/
def WF (ns : List HistoNode) : Prop :=
  0 < ns.length ∧
  (nodeAt ns 0).parent = none ∧
  (nodeAt ns 0).name = "ROOT" ∧
  (∀ i < ns.length, ∀ e ∈ (nodeAt ns i).children,
    i < e.2 ∧ e.2 < ns.length ∧
      (nodeAt ns e.2).parent = some i ∧ (nodeAt ns e.2).name = e.1) ∧
  (∀ j < ns.length, 0 < j → ∃ p < j, (nodeAt ns j).parent = some p ∧
    ((nodeAt ns j).name, j) ∈ (nodeAt ns p).children) ∧
  (∀ i < ns.length, ((nodeAt ns i).children.map Prod.fst).Nodup) ∧
  (∀ i < ns.length, (nodeAt ns i).data.length = 8)

instance WF.dec (ns : List HistoNode) : Decidable (WF ns) := by
  unfold WF; infer_instance

/-- Children-closedness: every child entry points inside the arena (the
fragment of `WF` the insertion proofs need). -/
def CC (ns : List HistoNode) : Prop :=
  ∀ i : ℕ, ∀ e ∈ (nodeAt ns i).children, e.2 < ns.length

/-- Soundness of the memoization cache: every stored binding is a result the
uncached `find` would still produce.  Holds in every reachable state because
only non-`None` results are stored and nodes are never removed. -/
def CacheOK (ns : List HistoNode) (c : List (String × ℕ)) : Prop :=
  ∀ e ∈ c, findPure (FIND_FUEL e.1) ns e.1 = .found e.2

instance CacheOK.dec (ns : List HistoNode) (c : List (String × ℕ)) :
    Decidable (CacheOK ns c) := by
  unfold CacheOK; infer_instance

/-- The node together with its descendants, collected through the child maps
(fuel-bounded; fuel `ns.length + 1` covers every chain because child indices
strictly increase along any path in a well-formed arena). -/
def descList : ℕ → List HistoNode → ℕ → List ℕ
  | 0, _, i => [i]
  | fuel + 1, ns, i =>
    i :: ((nodeAt ns i).children.map Prod.snd).flatMap (descList fuel ns)

/-- The chain of ancestors of `i`, starting at `i` itself and following
parent references (fuel-bounded). -/
def ancChain : ℕ → List HistoNode → ℕ → List ℕ
  | 0, _, i => [i]
  | fuel + 1, ns, i =>
    i :: (match (nodeAt ns i).parent with
          | none => []
          | some p => ancChain fuel ns p)

/-- The ancestor chain with its canonical fuel (`i` steps suffice since
parent indices strictly decrease in a well-formed arena). -/
def anc (ns : List HistoNode) (i : ℕ) : List ℕ := ancChain i ns i

/-- Distance to the root along parent references (fuel-bounded). -/
def depthAux : ℕ → List HistoNode → ℕ → ℕ
  | 0, _, _ => 0
  | fuel + 1, ns, i =>
    match (nodeAt ns i).parent with
    | none => 0
    | some p => depthAux fuel ns p + 1

/-- Depth of node `i` (canonical fuel, as for `anc`). -/
def depth (ns : List HistoNode) (i : ℕ) : ℕ := depthAux i ns i

/-- The breadth-first levels: level 0 is the root, level `k+1` collects the
children (in sorted-key order) of level `k`. -/
def lvl (ns : List HistoNode) : ℕ → List ℕ
  | 0 => [0]
  | k + 1 => (lvl ns k).flatMap (sortedChildIds ns)

/-- One step of the `summarize_histo_data` child loop at node `i`: summarize
the child subtree rooted at `j`, then add the child's counters into `i`'s
counters (the loop body of `HistoNode.summarize_histo_data`). -/
def sumStep (fuel i : ℕ) (a : List HistoNode) (j : ℕ) : List HistoNode :=
  (summarizeNode fuel a j).set i
    { nodeAt (summarizeNode fuel a j) i with
      data := addCounts (nodeAt (summarizeNode fuel a j) i).data
                (nodeAt (summarizeNode fuel a j) j).data }

/-- `acc` is the arena `ns` with possibly different counter values: same
length, and every node keeps its children, parent, name and counter-vector
length.  The aggregation pass only rewrites counter values, so it preserves
this relation. -/
def SameShape (ns acc : List HistoNode) : Prop :=
  acc.length = ns.length ∧
  ∀ k : ℕ, (nodeAt acc k).children = (nodeAt ns k).children ∧
    (nodeAt acc k).parent = (nodeAt ns k).parent ∧
    (nodeAt acc k).name = (nodeAt ns k).name ∧
    (nodeAt acc k).data.length = (nodeAt ns k).data.length

/-- The node and all of its descendants, at the canonical saturating fuel
(child indices strictly increase in a well-formed arena, so `ns.length`
steps reach everything). -/
def descs (ns : List HistoNode) (i : ℕ) : List ℕ := descList ns.length ns i

/-- The sum, over the node `v` and all of its descendants, of the counter in
bucket `b`. -/
def subSum (ns : List HistoNode) (v b : ℕ) : ℕ :=
  ((descs ns v).map (fun j => (dataAt ns j).getD b 0)).sum

/-- Join path segments with the separator. -/
def joinSegs : List String → String
  | [] => ""
  | [s] => s
  | s :: rest => s ++ "/" ++ joinSegs rest

/-- The names on the path from the root down to node `i`. -/
def ancSegs (ns : List HistoNode) (i : ℕ) : List String :=
  (anc ns i).reverse.map (fun j => (nodeAt ns j).name)

/-- Example tree: the three inserted paths of the end-to-end scenario.
Node indices: 0 = ROOT, 1 = ./ROOT/a, 2 = ./ROOT/a/b, 3 = ./ROOT/b. -/
def exTree : HistoTree := buildTree ["./ROOT/a", "./ROOT/a/b", "./ROOT/b"]

/-- The rational 0.5, given in normal form so that kernel evaluation never
has to normalize a fraction. -/
def half : ℚ := ⟨1, 2, by decide, Nat.coprime_one_left 2⟩

/-- `exTree` after recording the ages 0.5, 6 and 100 at `./ROOT/a/b`. -/
def exTree3 : HistoTree :=
  (((exTree.increment "./ROOT/a/b" half).2.increment "./ROOT/a/b" 6).2.increment
      "./ROOT/a/b" 100).2

/-- Example tree with the single inserted path `./ROOT/a` (node index 1). -/
def exA : HistoTree := buildTree ["./ROOT/a"]

end NeHisto

deriving instance DecidableEq for Except

namespace NeHisto

/-- The bin-selection loop computes `findIdx` of the first strictly greater
threshold, shifted by the accumulator. -/
theorem binLoop_eq_findIdx (age : ℚ) (l : List ℚ) (acc : ℕ) :
    binLoop age l acc = acc + l.findIdx (fun d => decide (age < d)) := by
  induction l generalizing acc with
  | nil => simp [binLoop]
  | cons d rest ih =>
    by_cases h : d ≤ age
    · have hlt : ¬ age < d := not_lt.mpr h
      simp [binLoop, if_pos h, ih, List.findIdx_cons, hlt]
      omega
    · have hlt : age < d := not_le.mp h
      simp [binLoop, h, List.findIdx_cons, hlt]

/-- C2: the bin-selection loop inside `increment` returns the index of the
first threshold the age is strictly less than (`List.findIdx`, which is the
catch-all index `7 = BIN_DAYS.length` when no threshold is greater), it
returns 7 whenever the age is at least every threshold, and every negative
age classifies to index 0 without any error. -/
theorem C2_bucket_classifier (a : ℚ) :
    binFor a = BIN_DAYS.findIdx (fun d => decide (a < d)) ∧
    ((∀ d ∈ BIN_DAYS, d ≤ a) → binFor a = 7) ∧
    (a < 0 → binFor a = 0) := by
  refine ⟨by simpa using binLoop_eq_findIdx a BIN_DAYS 0, ?_, ?_⟩
  · intro h
    have h1 : (1 : ℚ) ≤ a := h 1 (by simp [BIN_DAYS])
    have h5 : (5 : ℚ) ≤ a := h 5 (by simp [BIN_DAYS])
    have h7 : (7 : ℚ) ≤ a := h 7 (by simp [BIN_DAYS])
    have h14 : (14 : ℚ) ≤ a := h 14 (by simp [BIN_DAYS])
    have h30 : (30 : ℚ) ≤ a := h 30 (by simp [BIN_DAYS])
    have h60 : (60 : ℚ) ≤ a := h 60 (by simp [BIN_DAYS])
    have h90 : (90 : ℚ) ≤ a := h 90 (by simp [BIN_DAYS])
    simp [binFor, BIN_DAYS, binLoop, h1, h5, h7, h14, h30, h60, h90]
  · intro h
    have h1 : ¬ (1 : ℚ) ≤ a := by linarith
    simp [binFor, BIN_DAYS, binLoop, h1]

/-- Witness for C2: the negative age −2 classifies to bucket 0, and the age
100, at least every threshold, classifies to the catch-all bucket 7. -/
theorem C2_bucket_classifier_witness : binFor (-2) = 0 ∧ binFor 100 = 7 :=
  ⟨(C2_bucket_classifier (-2)).2.2 (by norm_num),
   (C2_bucket_classifier 100).2.1 (by decide)⟩

/-- C3 counterexample: in the end-to-end scenario (insert `./ROOT/a`,
`./ROOT/a/b`, `./ROOT/b`; record ages 0.5, 6, 100 at `./ROOT/a/b`;
aggregate) the counts at node `./ROOT/a` (arena index 1) are
`[1,0,1,0,0,0,0,1]`, not the claimed `[1,1,0,0,0,0,0,1]`: the age 6 falls
in bucket 2 (the `"<7"` bin), not bucket 1 (the `"<5"` bin, which 6 fails
since 6 ≥ 5). -/
theorem C3_end_to_end_counterexample :
    (findMemo (FIND_FUEL "./ROOT/a") exTree.nodes [] "./ROOT/a").1 = .found 1 ∧
    dataAt exTree3.summarize.nodes 1 = [1, 0, 1, 0, 0, 0, 0, 1] ∧
    dataAt exTree3.summarize.nodes 1 ≠ [1, 1, 0, 0, 0, 0, 0, 1] :=
  ⟨by decide, by decide, by decide⟩

/-- C3 (amended): the scenario yields counts `[1,0,1,0,0,0,0,1]` at
`./ROOT/a` (age 0.5 in bucket 0, age 6 in bucket 2 since 6 ≥ 5 but 6 < 7,
age 100 in bucket 7), the identical vector at `./ROOT/a/b`, and all-zero
counts at `./ROOT/b`. -/
theorem C3_end_to_end :
    binFor half = 0 ∧ binFor 6 = 2 ∧ binFor 100 = 7 ∧
    (findMemo (FIND_FUEL "./ROOT/a") exTree.nodes [] "./ROOT/a").1 = .found 1 ∧
    (findMemo (FIND_FUEL "./ROOT/a/b") exTree.nodes [] "./ROOT/a/b").1 = .found 2 ∧
    (findMemo (FIND_FUEL "./ROOT/b") exTree.nodes [] "./ROOT/b").1 = .found 3 ∧
    dataAt exTree3.summarize.nodes 1 = [1, 0, 1, 0, 0, 0, 0, 1] ∧
    dataAt exTree3.summarize.nodes 2 = [1, 0, 1, 0, 0, 0, 0, 1] ∧
    dataAt exTree3.summarize.nodes 3 = [0, 0, 0, 0, 0, 0, 0, 0] :=
  ⟨by decide, by decide, by decide, by decide, by decide, by decide,
   by decide, by decide, by decide⟩

/-- C9 counterexample: the path string `full_path_name` rebuilds for the
node at `./ROOT/a` is `"ROOT/a"`; the `"./"` of the input convention is
never reinstated, so the result does not begin with `"./ROOT"`. -/
theorem C9_full_path_counterexample :
    exA.fullPathName 1 = "ROOT/a" ∧
    ¬ ("./ROOT".data <+: (exA.fullPathName 1).data) :=
  ⟨by decide, by decide⟩

/-! ### Association-list and arena access lemmas -/

theorem nodeAt_eq_getElem? (ns : List HistoNode) (i : ℕ) :
    nodeAt ns i = (ns[i]?).getD dummyNode := List.getD_eq_getElem?_getD ns i dummyNode

theorem nodeAt_of_ge {ns : List HistoNode} {i : ℕ} (h : ns.length ≤ i) :
    nodeAt ns i = dummyNode := by
  rw [nodeAt_eq_getElem?, List.getElem?_eq_none h]
  rfl

theorem nodeAt_append_lt {ns : List HistoNode} {i : ℕ} (x : HistoNode)
    (h : i < ns.length) : nodeAt (ns ++ [x]) i = nodeAt ns i := by
  rw [nodeAt_eq_getElem?, nodeAt_eq_getElem?, List.getElem?_append]
  simp [h]

theorem nodeAt_append_self (ns : List HistoNode) (x : HistoNode) :
    nodeAt (ns ++ [x]) ns.length = x := by
  rw [nodeAt_eq_getElem?, List.getElem?_concat_length]
  rfl

theorem nodeAt_set_ne {ns : List HistoNode} {i j : ℕ} (x : HistoNode) (h : i ≠ j) :
    nodeAt (ns.set i x) j = nodeAt ns j := by
  rw [nodeAt_eq_getElem?, nodeAt_eq_getElem?, List.getElem?_set_ne h]

theorem nodeAt_set_self {ns : List HistoNode} {i : ℕ} (x : HistoNode)
    (h : i < ns.length) : nodeAt (ns.set i x) i = x := by
  rw [nodeAt_eq_getElem?, List.getElem?_set_self h]
  rfl

theorem getChild_dummy (s : String) : dummyNode.getChild s = none := rfl

theorem lookup_cons_eq (k : String) (v : ℕ) (rest : List (String × ℕ)) :
    List.lookup k ((k, v) :: rest) = some v := by
  simp [List.lookup_cons]

theorem lookup_cons_ne {s k : String} (h : s ≠ k) (v : ℕ) (rest : List (String × ℕ)) :
    List.lookup s ((k, v) :: rest) = List.lookup s rest := by
  have hb : (s == k) = false := beq_false_of_ne h
  simp [List.lookup_cons, hb]

theorem lookup_mem {l : List (String × ℕ)} {s : String} {v : ℕ}
    (h : l.lookup s = some v) : (s, v) ∈ l := by
  induction l with
  | nil => cases h
  | cons e rest ih =>
    obtain ⟨k, w⟩ := e
    by_cases hk : s = k
    · subst hk
      rw [lookup_cons_eq] at h
      cases h
      exact List.mem_cons_self _ _
    · rw [lookup_cons_ne hk] at h
      exact List.mem_cons_of_mem _ (ih h)

theorem lookup_setKey_self (l : List (String × ℕ)) (s : String) (v : ℕ) :
    (setKey l s v).lookup s = some v := by
  induction l with
  | nil => simp [setKey, lookup_cons_eq]
  | cons e rest ih =>
    obtain ⟨k, w⟩ := e
    by_cases h : k = s
    · subst h
      simp [setKey, lookup_cons_eq]
    · simp only [setKey, if_neg h]
      rw [lookup_cons_ne (fun hs => h hs.symm), ih]

theorem lookup_setKey_ne (l : List (String × ℕ)) (s : String) (v : ℕ) {s' : String}
    (h : s' ≠ s) : (setKey l s v).lookup s' = l.lookup s' := by
  induction l with
  | nil => simp [setKey, lookup_cons_ne h]
  | cons e rest ih =>
    obtain ⟨k, w⟩ := e
    by_cases hk : k = s
    · subst hk
      rw [setKey, if_pos rfl, lookup_cons_ne h]
      by_cases h2 : s' = k
      · subst h2; exact absurd rfl h
      · rw [lookup_cons_ne h2]
    · rw [setKey, if_neg hk]
      by_cases h2 : s' = k
      · subst h2
        rw [lookup_cons_eq, lookup_cons_eq]
      · rw [lookup_cons_ne h2, lookup_cons_ne h2, ih]

theorem mem_setKey {l : List (String × ℕ)} {s : String} {v : ℕ} {e : String × ℕ}
    (h : e ∈ setKey l s v) : e = (s, v) ∨ e ∈ l := by
  induction l with
  | nil => simpa [setKey] using h
  | cons f rest ih =>
    obtain ⟨k, w⟩ := f
    by_cases hk : k = s
    · subst hk
      rw [setKey, if_pos rfl] at h
      rcases List.mem_cons.mp h with h | h
      · exact .inl h
      · exact .inr (List.mem_cons_of_mem _ h)
    · rw [setKey, if_neg hk] at h
      rcases List.mem_cons.mp h with h | h
      · exact .inr (h ▸ List.mem_cons_self _ _)
      · rcases ih h with h | h
        · exact .inl h
        · exact .inr (List.mem_cons_of_mem _ h)

/-! ### The insertion loop: closedness, monotonicity, idempotence -/

theorem cc_of_wf {ns : List HistoNode} (h : WF ns) : CC ns := by
  intro i e he
  by_cases hi : i < ns.length
  · exact (h.2.2.2.1 i hi e he).2.1
  · rw [nodeAt_of_ge (le_of_not_lt hi)] at he
    simp [dummyNode] at he

theorem insertStep_length (ns : List HistoNode) (i : ℕ) (d : String) :
    (insertStep ns i d).length = ns.length + 1 := by
  simp [insertStep]

theorem nodeAt_insertStep_self {ns : List HistoNode} {i : ℕ} (d : String)
    (h : i < ns.length) :
    nodeAt (insertStep ns i d) i =
      { nodeAt ns i with children := setKey (nodeAt ns i).children d ns.length } := by
  rw [insertStep]
  exact nodeAt_set_self _ (by simp; omega)

theorem nodeAt_insertStep_new {ns : List HistoNode} {i : ℕ} (d : String)
    (h : i < ns.length) :
    nodeAt (insertStep ns i d) ns.length =
      { name := d, parent := some i, children := [], data := EMPTY_HISTO_DATA } := by
  rw [insertStep, nodeAt_set_ne _ (Nat.ne_of_lt h), nodeAt_append_self]

theorem nodeAt_insertStep_other {ns : List HistoNode} {i i0 : ℕ} (d : String)
    (hne : i0 ≠ i) (h0 : i0 < ns.length) :
    nodeAt (insertStep ns i d) i0 = nodeAt ns i0 := by
  rw [insertStep, nodeAt_set_ne _ (fun hsym => hne hsym.symm), nodeAt_append_lt _ h0]

theorem nodeAt_insertStep_ge {ns : List HistoNode} {i i0 : ℕ} (d : String)
    (h0 : ns.length + 1 ≤ i0) :
    nodeAt (insertStep ns i d) i0 = dummyNode :=
  nodeAt_of_ge (by rw [insertStep_length]; omega)

/-- Degenerate case of `insertStep` with a dangling parent index beyond even
the appended node: the `set` is out of range and only the fresh node is
appended. -/
theorem insertStep_of_ge {ns : List HistoNode} {i : ℕ} (d : String)
    (h : ns.length + 1 ≤ i) :
    insertStep ns i d = ns ++ [({ name := d, parent := some i, children := [],
                                  data := EMPTY_HISTO_DATA } : HistoNode)] := by
  rw [insertStep]
  exact List.set_eq_of_length_le (by simp; omega)

/-- The arena only grows along `insertLoop`. -/
theorem insertLoop_length_le (ds : List String) :
    ∀ ns i, ns.length ≤ (insertLoop ns i ds).length := by
  induction ds with
  | nil => intro ns i; exact le_rfl
  | cons d rest ih =>
    intro ns i
    rw [insertLoop]
    cases hgc : (nodeAt ns i).getChild d with
    | some j => exact ih ns j
    | none =>
      refine le_trans ?_ (ih (insertStep ns i d) ns.length)
      rw [insertStep_length]
      omega

/-- The node created when the parent index dangles exactly at the arena end:
the `set` overwrites the freshly appended node with an updated dummy. -/
theorem nodeAt_insertStep_eqlen_self (ns : List HistoNode) (d : String) :
    nodeAt (insertStep ns ns.length d) ns.length =
      { name := "", parent := none, children := [(d, ns.length)], data := [] } := by
  have hdum : nodeAt ns ns.length = dummyNode := nodeAt_of_ge le_rfl
  rw [insertStep, hdum, nodeAt_set_self _ (by simp)]
  rfl

/-- One creation step preserves children-closedness. -/
theorem cc_step {ns : List HistoNode} (hcc : CC ns) (i : ℕ) (d : String) :
    CC (insertStep ns i d) := by
  intro i0 e he
  rw [insertStep_length]
  by_cases hbig : ns.length + 1 ≤ i0
  · rw [nodeAt_insertStep_ge d hbig] at he
    simp [dummyNode] at he
  · by_cases hi : i < ns.length
    · by_cases hii : i0 = i
      · subst hii
        rw [nodeAt_insertStep_self d hi] at he
        rcases mem_setKey he with h | h
        · subst h; exact Nat.lt_succ_self _
        · exact Nat.lt_succ_of_lt (hcc i0 e h)
      · by_cases h0 : i0 < ns.length
        · rw [nodeAt_insertStep_other d hii h0] at he
          exact Nat.lt_succ_of_lt (hcc i0 e he)
        · have h1 : i0 = ns.length := by omega
          subst h1
          rw [nodeAt_insertStep_new d hi] at he
          simp at he
    · by_cases hieq : i = ns.length
      · subst hieq
        by_cases hii : i0 = ns.length
        · subst hii
          rw [nodeAt_insertStep_eqlen_self ns d] at he
          rcases List.mem_cons.mp he with h | h
          · subst h; exact Nat.lt_succ_self _
          · simp at h
        · have h0 : i0 < ns.length := by omega
          rw [nodeAt_insertStep_other d hii h0] at he
          exact Nat.lt_succ_of_lt (hcc i0 e he)
      · have hge : ns.length + 1 ≤ i := by omega
        rw [insertStep_of_ge d hge] at he
        by_cases h0 : i0 < ns.length
        · rw [nodeAt_append_lt _ h0] at he
          exact Nat.lt_succ_of_lt (hcc i0 e he)
        · have h1 : i0 = ns.length := by omega
          subst h1
          rw [nodeAt_append_self] at he
          simp at he


/-- `insertLoop` preserves children-closedness. -/
theorem cc_insertLoop (ds : List String) :
    ∀ ns i, CC ns → CC (insertLoop ns i ds) := by
  induction ds with
  | nil => intro ns i h; exact h
  | cons d rest ih =>
    intro ns i hcc
    rw [insertLoop]
    cases hgc : (nodeAt ns i).getChild d with
    | some j => exact ih ns j hcc
    | none => exact ih _ _ (cc_step hcc i d)

/-- A child binding present before `insertLoop` is still present, unchanged,
afterwards. -/
theorem getChild_insertLoop (ds : List String) :
    ∀ ns i {i0 : ℕ} {s : String} {j : ℕ}, (nodeAt ns i0).getChild s = some j →
      (nodeAt (insertLoop ns i ds) i0).getChild s = some j := by
  induction ds with
  | nil => intro ns i i0 s j h; exact h
  | cons d rest ih =>
    intro ns i i0 s j h
    cases hgc : (nodeAt ns i).getChild d with
    | some k =>
      simp only [insertLoop, hgc]
      exact ih ns k h
    | none =>
      simp only [insertLoop, hgc]
      apply ih
      have hi0 : i0 < ns.length := by
        by_contra hge
        rw [nodeAt_of_ge (le_of_not_lt hge), getChild_dummy] at h
        cases h
      by_cases hii : i0 = i
      · subst hii
        rw [HistoNode.getChild, nodeAt_insertStep_self d hi0]
        have hsd : s ≠ d := by
          intro hsd
          rw [hsd] at h
          rw [h] at hgc
          cases hgc
        show (setKey (nodeAt ns i0).children d ns.length).lookup s = some j
        rw [lookup_setKey_ne _ _ _ hsd]
        exact h
      · rw [HistoNode.getChild, nodeAt_insertStep_other d hii hi0]
        exact h

/-- Running `insertLoop` twice with the same components changes nothing the
second time. -/
theorem insertLoop_idem (ds : List String) :
    ∀ ns i, CC ns → i < ns.length →
      insertLoop (insertLoop ns i ds) i ds = insertLoop ns i ds := by
  induction ds with
  | nil => intro ns i _ _; rfl
  | cons d rest ih =>
    intro ns i hcc hi
    cases hgc : (nodeAt ns i).getChild d with
    | some j =>
      have hgc' : (nodeAt ns i).children.lookup d = some j := hgc
      have hj : j < ns.length := hcc i (d, j) (lookup_mem hgc')
      have h2 := getChild_insertLoop rest ns j hgc
      simp only [insertLoop, hgc, h2]
      exact ih ns j hcc hj
    | none =>
      have hcc2 : CC (insertStep ns i d) := cc_step hcc i d
      have hchild2 : (nodeAt (insertStep ns i d) i).getChild d = some ns.length := by
        rw [HistoNode.getChild, nodeAt_insertStep_self d hi]
        exact lookup_setKey_self _ _ _
      have h2 := getChild_insertLoop rest (insertStep ns i d) ns.length hchild2
      simp only [insertLoop, hgc, h2]
      exact ih (insertStep ns i d) ns.length hcc2 (by rw [insertStep_length]; omega)



/-- C7: `insert` is idempotent on tree structure: on a well-formed tree,
re-inserting a successfully inserted path returns exactly the same state, so
each node of the path is created at most once (never a duplicate sibling)
and `find` returns the same node identity after every such insertion. -/
theorem C7_insert_idempotent (t t' : HistoTree) (p : String) (hwf : WF t.nodes)
    (h : t.insert p = .ok t') : t'.insert p = .ok t' := by
  unfold HistoTree.insert at h ⊢
  split at h
  · cases h
  · rename_i d0 rest0 heq
    split at h
    · cases h
    · rename_i h0
      split at h
      · cases h
      · rename_i d1 rest
        split at h
        · cases h
        · rename_i h1
          cases h
          have h0' : d0 = "." := not_not.mp h0
          have h1' : d1 = "ROOT" := not_not.mp h1
          subst h0'
          subst h1'
          have hidem := insertLoop_idem rest t.nodes 0 (cc_of_wf hwf) hwf.1
          simp [hidem]

/-- Witness for C7: re-inserting `./ROOT/a` into the one-path example tree
returns it unchanged. -/
theorem C7_insert_idempotent_witness : exA.insert "./ROOT/a" = Except.ok exA :=
  C7_insert_idempotent initTree exA "./ROOT/a" (by decide) (by decide)


/-! ### General list helpers -/

theorem prefix_head {l m : List Char} (h : l <+: m) (hne : l ≠ []) :
    l.head? = m.head? := by
  obtain ⟨t, rfl⟩ := h
  cases l with
  | nil => exact absurd rfl hne
  | cons c cs => rfl

theorem prefix_length_lt {l m : List Char} (h : l <+: m) (hne : l ≠ m) :
    l.length < m.length := by
  rcases Nat.lt_or_ge l.length m.length with hlt | hge
  · exact hlt
  · exact absurd (List.IsPrefix.eq_of_length_le h hge) hne

/-! ### `os.path.split` structure lemmas -/

/-- The head/tail decomposition before trailing-slash stripping:
`p = hd ++ tl` with `hd` the text up to and including the last slash. -/
theorem splitChars_hd_append (p : List Char) :
    (p.reverse.dropWhile (fun c => !(c == '/'))).reverse ++
      (p.reverse.takeWhile (fun c => !(c == '/'))).reverse = p := by
  rw [← List.reverse_append, List.takeWhile_append_dropWhile, List.reverse_reverse]

/-- A nonempty pre-strip head ends in a slash. -/
theorem splitChars_hd_last {p : List Char}
    (h : (p.reverse.dropWhile (fun c => !(c == '/'))).reverse ≠ []) :
    ∃ rest, p.reverse.dropWhile (fun c => !(c == '/')) = '/' :: rest := by
  cases hdw : p.reverse.dropWhile (fun c => !(c == '/')) with
  | nil => rw [hdw] at h; exact absurd rfl h
  | cons c rest =>
    have hc0 := List.head?_dropWhile_not (fun c => !(c == '/')) p.reverse
    rw [hdw] at hc0
    simp only [List.head?_cons] at hc0
    have : c = '/' := by
      have hcb : (c == '/') = true := by
        cases hbc : (c == '/') with
        | true => rfl
        | false => rw [hbc] at hc0; cases hc0
      exact beq_iff_eq.mp hcb
    exact ⟨rest, by rw [this]⟩

/-- Stripped trailing slashes: any list is its stripped form plus a slash
block, and the block is all slashes. -/
theorem dropTrailing_decomp (l : List Char) :
    (l.reverse.dropWhile (fun c => c == '/')).reverse ++
      (l.reverse.takeWhile (fun c => c == '/')).reverse = l ∧
    (∀ c ∈ (l.reverse.takeWhile (fun c => c == '/')).reverse, c = '/') := by
  constructor
  · rw [← List.reverse_append, List.takeWhile_append_dropWhile, List.reverse_reverse]
  · intro c hc
    rw [List.mem_reverse] at hc
    have hb := List.mem_takeWhile_imp hc
    exact beq_iff_eq.mp hb

/-- T1: the head returned by `os.path.split` is a prefix of the input. -/
theorem splitChars_fst_isPre (p : List Char) : (splitChars p).1 <+: p := by
  unfold splitChars
  simp only
  split
  · refine List.IsPrefix.trans ?_ ⟨_, splitChars_hd_append p⟩
    exact ⟨_, (dropTrailing_decomp _).1⟩
  · exact ⟨_, splitChars_hd_append p⟩

/-- T5: on an all-slash input, `os.path.split` returns the input as head and
an empty tail (`find`'s recursion never shrinks such a path). -/
theorem splitChars_all_slash {p : List Char}
    (hall : ∀ c ∈ p, c = '/') : splitChars p = (p, []) := by
  have htw : p.reverse.takeWhile (fun c => !(c == '/')) = [] := by
    cases hrev : p.reverse with
    | nil => rfl
    | cons c rest =>
      have hc : c ∈ p := by
        rw [← List.mem_reverse, hrev]
        exact List.mem_cons_self _ _
      rw [List.takeWhile_cons]
      simp [hall c hc]
  have hdw : p.reverse.dropWhile (fun c => !(c == '/')) = p.reverse := by
    have hsplit := List.takeWhile_append_dropWhile
      (fun c => !(c == '/')) p.reverse
    rw [htw] at hsplit
    simpa using hsplit
  unfold splitChars
  simp only [htw, hdw, List.reverse_reverse]
  rw [if_neg]
  · simp
  · intro hcond
    exact absurd (List.all_eq_true.mpr (fun c hc => beq_iff_eq.mpr (hall c hc)))
      hcond.2

/-- T6: the head equals the input only for the empty or all-slash input. -/
theorem splitChars_fst_eq_self {p : List Char} (h : (splitChars p).1 = p) :
    p = [] ∨ ∀ c ∈ p, c = '/' := by
  unfold splitChars at h
  simp only at h
  split at h
  · rename_i hcond
    exfalso
    obtain ⟨rest, hdw⟩ := splitChars_hd_last hcond.1
    rw [List.reverse_reverse, hdw] at h
    have hstep : List.dropWhile (fun c => c == '/') ('/' :: rest) =
        List.dropWhile (fun c => c == '/') rest := by
      rw [List.dropWhile_cons]
      simp
    rw [hstep] at h
    have h1 : (List.dropWhile (fun c => c == '/') rest).length ≤ rest.length :=
      (List.dropWhile_sublist _).length_le
    have h2 : (List.dropWhile (fun c => c == '/') rest).reverse.length = p.length :=
      congrArg List.length h
    have h3 := congrArg List.length (splitChars_hd_append p)
    rw [hdw] at h3
    simp only [List.length_append, List.length_reverse, List.length_cons] at h3 h2
    omega
  · rename_i hcond
    by_cases hnil : (p.reverse.dropWhile (fun c => !(c == '/'))).reverse = []
    · left
      rw [← h]
      exact hnil
    · right
      have hall : ((p.reverse.dropWhile (fun c => !(c == '/'))).reverse).all
          (fun c => c == '/') = true := by
        rcases not_and_or.mp hcond with hc | hc
        · exact absurd (not_not.mp hc) hnil
        · exact not_not.mp hc
      intro c hc
      rw [← h] at hc
      exact beq_iff_eq.mp (List.all_eq_true.mp hall _ hc)

/-- T3: a nonempty head starts with the same character as the input. -/
theorem splitChars_fst_head {p : List Char} (h : (splitChars p).1 ≠ []) :
    (splitChars p).1.head? = p.head? :=
  prefix_head (splitChars_fst_isPre p) h

/-- T2: when the input does not start with a slash, the head is empty or
strictly shorter than the input. -/
theorem splitChars_fst_short {p : List Char} (hs : p.head? ≠ some '/') :
    (splitChars p).1 = [] ∨ (splitChars p).1.length < p.length := by
  by_cases heq : (splitChars p).1 = p
  · rcases splitChars_fst_eq_self heq with h | h
    · exact .inl (heq.trans h)
    · cases p with
      | nil => exact .inl heq
      | cons c cs =>
        exfalso
        apply hs
        have hc : c = '/' := h c (List.mem_cons_self _ _)
        rw [hc]
        rfl
  · exact .inr (prefix_length_lt (splitChars_fst_isPre p) heq)

/-- T4: the head can be exactly `"./ROOT"` only when the input starts with
the full `"./ROOT/"` prefix. -/
theorem splitChars_fst_root {p : List Char}
    (h : (splitChars p).1 = "./ROOT".data) : "./ROOT/".data <+: p := by
  have hslash : "./ROOT/".data = "./ROOT".data ++ ['/'] := by decide
  unfold splitChars at h
  simp only at h
  split at h
  · rename_i hcond
    obtain ⟨rest, hdw⟩ := splitChars_hd_last hcond.1
    have hdecomp :=
      dropTrailing_decomp ((p.reverse.dropWhile (fun c => !(c == '/'))).reverse)
    obtain ⟨hsum, hallsl⟩ := hdecomp
    rw [List.reverse_reverse, hdw] at h
    rw [List.reverse_reverse, hdw] at hsum hallsl
    have htk : List.takeWhile (fun c => c == '/') ('/' :: rest) =
        '/' :: List.takeWhile (fun c => c == '/') rest := by
      rw [List.takeWhile_cons]
      simp
    rw [htk] at hsum hallsl
    rw [h] at hsum
    cases hX : ('/' :: List.takeWhile (fun c => c == '/') rest).reverse with
    | nil => exact absurd (congrArg List.length hX) (by simp)
    | cons c xs =>
      have hc : c = '/' := by
        apply hallsl
        rw [hX]
        exact List.mem_cons_self _ _
      rw [hX, hc] at hsum
      have heqB : (p.reverse.dropWhile (fun c => !(c == '/'))).reverse =
          "./ROOT".data ++ '/' :: xs := by
        rw [hdw, ← hsum]
      have hp1 : "./ROOT".data ++ '/' :: xs <+:
          (p.reverse.dropWhile (fun c => !(c == '/'))).reverse :=
        ⟨[], by rw [List.append_nil]; exact heqB.symm⟩
      have hp2 : (p.reverse.dropWhile (fun c => !(c == '/'))).reverse <+: p :=
        ⟨_, splitChars_hd_append p⟩
      have hp3 : "./ROOT".data ++ ['/'] <+: "./ROOT".data ++ '/' :: xs :=
        ⟨xs, by simp⟩
      rw [hslash]
      exact hp3.trans (hp1.trans hp2)
  · rename_i hcond
    exfalso
    have hne : (p.reverse.dropWhile (fun c => !(c == '/'))).reverse ≠ [] := by
      intro h0
      rw [h0] at h
      exact absurd (congrArg List.length h) (by decide)
    have hall : ∀ c ∈ (p.reverse.dropWhile (fun c => !(c == '/'))).reverse,
        c = '/' := by
      rcases not_and_or.mp hcond with hc | hc
      · exact absurd (not_not.mp hc) hne
      · intro c hc2
        exact beq_iff_eq.mp (List.all_eq_true.mp (not_not.mp hc) _ hc2)
    have hdot : ('.' : Char) ∈ (p.reverse.dropWhile (fun c => !(c == '/'))).reverse := by
      rw [h]
      decide
    exact absurd (hall _ hdot) (by decide)

/-! ### `findPure` lemmas -/

/-- On a nonempty all-slash path the recursion of `find` never terminates:
with any fuel the result is `diverge` (models the `RecursionError`). -/
theorem findPure_all_slash {p : String} (hne : p.data ≠ [])
    (hall : ∀ c ∈ p.data, c = '/') : ∀ f ns, findPure f ns p = .diverge := by
  intro f
  induction f with
  | zero => intro ns; rfl
  | succ n ih =>
    intro ns
    have hsc : splitChars p.data = (p.data, []) := splitChars_all_slash hall
    have hd1 : (osPathSplit p).1 = p := by
      simp only [osPathSplit, hsc]
    have hroot : p ≠ "./ROOT" := by
      intro h
      subst h
      exact absurd (hall '.' (by decide)) (by decide)
    have hempty : p ≠ "" := by
      intro h
      rw [h] at hne
      exact hne rfl
    simp only [findPure, hd1, if_neg hroot, if_neg hempty, ih ns]

/-- Result stability in the fuel: any fuel of at least `length + 1` gives
the canonical result. -/
theorem findPure_fuel_stable : ∀ (n : ℕ) (p : String), p.length < n →
    ∀ f ns, p.length + 1 ≤ f → findPure f ns p = findPure (p.length + 1) ns p := by
  intro n
  induction n with
  | zero => intro p h; omega
  | succ m ih =>
    intro p hp f ns hf
    cases f with
    | zero => omega
    | succ f' =>
      by_cases hall : p.data ≠ [] ∧ ∀ c ∈ p.data, c = '/'
      · rw [findPure_all_slash hall.1 hall.2, findPure_all_slash hall.1 hall.2]
      · simp only [findPure, osPathSplit]
        by_cases hroot : String.mk (splitChars p.data).1 = "./ROOT"
        · rw [if_pos hroot, if_pos hroot]
        · rw [if_neg hroot, if_neg hroot]
          by_cases hempty : String.mk (splitChars p.data).1 = ""
          · rw [if_pos hempty, if_pos hempty]
          · rw [if_neg hempty, if_neg hempty]
            have hfstne : (splitChars p.data).1 ≠ p.data := by
              intro he
              rcases splitChars_fst_eq_self he with h | h
              · apply hempty
                rw [he, h]
              · rcases not_and_or.mp hall with hc | hc
                · apply hempty
                  rw [he, not_not.mp hc]
                · exact hc h
            have hlen : (splitChars p.data).1.length < p.data.length :=
              prefix_length_lt (splitChars_fst_isPre p.data) hfstne
            have hplen : p.length = p.data.length := rfl
            have hdlen : (String.mk (splitChars p.data).1).length =
                (splitChars p.data).1.length := rfl
            have h1 := ih (String.mk (splitChars p.data).1)
              (by rw [hdlen]; omega) f' ns (by rw [hdlen]; omega)
            have h2 := ih (String.mk (splitChars p.data).1)
              (by rw [hdlen]; omega) p.length ns (by rw [hdlen]; omega)
            rw [h1, h2]

/-- The `find` recursion on a path that does not start with a slash (so the
recursion terminates) and whose `os.path.split` chain can never produce the
`"./ROOT"` head always raises `InvalidPathError`. -/
theorem findPure_invalid_chain : ∀ (n : ℕ) (p : String), p.length < n →
    p.data.head? ≠ some '/' → p ≠ "./ROOT" → ¬ ("./ROOT/".data <+: p.data) →
    ∀ f ns, p.length + 1 ≤ f → findPure f ns p = .invalid := by
  intro n
  induction n with
  | zero => intro p h; omega
  | succ m ih =>
    intro p hp hs h6 h7 f ns hf
    cases f with
    | zero => omega
    | succ f' =>
      simp only [findPure, osPathSplit]
      by_cases hroot : String.mk (splitChars p.data).1 = "./ROOT"
      · exfalso
        have h4 : (splitChars p.data).1 = "./ROOT".data := congrArg String.data hroot
        exact h7 (splitChars_fst_root h4)
      · rw [if_neg hroot]
        by_cases hempty : String.mk (splitChars p.data).1 = ""
        · rw [if_pos hempty]
        · rw [if_neg hempty]
          have hfstnil : (splitChars p.data).1 ≠ [] := by
            intro h0
            apply hempty
            rw [h0]
          have hfstne : (splitChars p.data).1 ≠ p.data := by
            intro he
            rcases splitChars_fst_eq_self he with h | h
            · exact hfstnil (he.trans h)
            · cases hd : p.data with
              | nil => exact hfstnil (by rw [he, hd])
              | cons c cs =>
                apply hs
                have hc : c = '/' := h c (by rw [hd]; exact List.mem_cons_self _ _)
                rw [hd, hc]
                rfl
          have hlen : (splitChars p.data).1.length < p.data.length :=
            prefix_length_lt (splitChars_fst_isPre p.data) hfstne
          have hplen : p.length = p.data.length := rfl
          have hdlen : (String.mk (splitChars p.data).1).length =
              (splitChars p.data).1.length := rfl
          have c1 : (String.mk (splitChars p.data).1).data.head? ≠ some '/' := by
            show (splitChars p.data).1.head? ≠ some '/'
            rw [splitChars_fst_head hfstnil]
            exact hs
          have c3 : ¬ ("./ROOT/".data <+: (String.mk (splitChars p.data).1).data) := by
            show ¬ ("./ROOT/".data <+: (splitChars p.data).1)
            intro h0
            exact h7 (h0.trans (splitChars_fst_isPre p.data))
          have hrec := ih (String.mk (splitChars p.data).1)
            (by rw [hdlen]; omega) c1 hroot c3 f' ns (by rw [hdlen]; omega)
          rw [hrec]

/-! ### Memoized `find` agrees with the uncached recursion -/

/-- On a nonempty all-slash path the memoized `find` also diverges and
leaves the cache unchanged (sound caches never contain such paths). -/
theorem findMemo_all_slash {p : String} (hne : p.data ≠ [])
    (hall : ∀ c ∈ p.data, c = '/') : ∀ f ns c, CacheOK ns c →
    findMemo f ns c p = (.diverge, c) := by
  intro f
  induction f with
  | zero => intro ns c _; rfl
  | succ n ih =>
    intro ns c hok
    have hlp : c.lookup p = none := by
      cases hl : c.lookup p with
      | none => rfl
      | some v =>
        exfalso
        have hfp := hok _ (lookup_mem hl)
        rw [findPure_all_slash hne hall] at hfp
        cases hfp
    have hsc : splitChars p.data = (p.data, []) := splitChars_all_slash hall
    have hd1 : (osPathSplit p).1 = p := by
      simp only [osPathSplit, hsc]
    have hroot : p ≠ "./ROOT" := by
      intro h
      subst h
      exact absurd (hall '.' (by decide)) (by decide)
    have hempty : p ≠ "" := by
      intro h
      rw [h] at hne
      exact hne rfl
    simp only [findMemo, hlp, hd1, if_neg hroot, if_neg hempty, ih ns c hok]

/-- With a sound cache and sufficient fuel the memoized `find` returns the
same result as the uncached recursion and keeps the cache sound: only
`found` results are ever stored. -/
theorem findMemo_agree : ∀ (n : ℕ) (p : String), p.length < n →
    ∀ f ns c, CacheOK ns c → p.length + 1 ≤ f →
    (findMemo f ns c p).1 = findPure (p.length + 1) ns p ∧
    CacheOK ns (findMemo f ns c p).2 := by
  intro n
  induction n with
  | zero => intro p h; omega
  | succ m ih =>
    intro p hp f ns c hok hf
    cases f with
    | zero => omega
    | succ f' =>
      by_cases hall : p.data ≠ [] ∧ ∀ c0 ∈ p.data, c0 = '/'
      · rw [findMemo_all_slash hall.1 hall.2 _ ns c hok,
          findPure_all_slash hall.1 hall.2]
        exact ⟨rfl, hok⟩
      · cases hl : c.lookup p with
        | some v =>
          have hfp := hok _ (lookup_mem hl)
          constructor
          · simp only [findMemo, hl]
            exact hfp.symm
          · simp only [findMemo, hl]
            exact hok
        | none =>
          by_cases hroot : String.mk (splitChars p.data).1 = "./ROOT"
          · cases hgc : (nodeAt ns 0).getChild (String.mk (splitChars p.data).2) with
            | some j =>
              have hpure : findPure (p.length + 1) ns p = .found j := by
                simp only [findPure, osPathSplit, if_pos hroot, hgc]
              constructor
              · simp only [findMemo, osPathSplit, hl, if_pos hroot, hgc]
                exact hpure.symm
              · simp only [findMemo, osPathSplit, hl, if_pos hroot, hgc]
                intro e he
                rcases mem_setKey he with h | h
                · rw [h]
                  exact hpure
                · exact hok _ h
            | none =>
              have hpure : findPure (p.length + 1) ns p = .notFound := by
                simp only [findPure, osPathSplit, if_pos hroot, hgc]
              constructor
              · simp only [findMemo, osPathSplit, hl, if_pos hroot, hgc]
                exact hpure.symm
              · simp only [findMemo, osPathSplit, hl, if_pos hroot, hgc]
                exact hok
          · by_cases hempty : String.mk (splitChars p.data).1 = ""
            · have hpure : findPure (p.length + 1) ns p = .invalid := by
                simp only [findPure, osPathSplit, if_neg hroot, if_pos hempty]
              constructor
              · simp only [findMemo, osPathSplit, hl, if_neg hroot, if_pos hempty]
                exact hpure.symm
              · simp only [findMemo, osPathSplit, hl, if_neg hroot, if_pos hempty]
                exact hok
            · -- recursive case
              have hfstnil : (splitChars p.data).1 ≠ [] := by
                intro h0
                apply hempty
                rw [h0]
              have hfstne : (splitChars p.data).1 ≠ p.data := by
                intro he
                rcases splitChars_fst_eq_self he with h | h
                · exact hfstnil (he.trans h)
                · rcases not_and_or.mp hall with hc | hc
                  · exact hfstnil (he.trans (not_not.mp hc))
                  · exact hc h
              have hlen : (splitChars p.data).1.length < p.data.length :=
                prefix_length_lt (splitChars_fst_isPre p.data) hfstne
              have hplen : p.length = p.data.length := rfl
              have hdlen : (String.mk (splitChars p.data).1).length =
                  (splitChars p.data).1.length := rfl
              obtain ⟨r1, c1, hfm⟩ :
                  ∃ r1 c1, findMemo f' ns c (String.mk (splitChars p.data).1) =
                    (r1, c1) :=
                ⟨_, _, rfl⟩
              have hrec := ih (String.mk (splitChars p.data).1)
                (by rw [hdlen]; omega) f' ns c hok (by rw [hdlen]; omega)
              rw [hfm] at hrec
              have hsc2 : findPure p.length ns (String.mk (splitChars p.data).1)
                  = r1 := by
                rw [findPure_fuel_stable ((splitChars p.data).1.length + 1)
                  (String.mk (splitChars p.data).1) (by rw [hdlen]; omega)
                  p.length ns (by rw [hdlen]; omega)]
                exact hrec.1.symm
              cases r1 with
              | found j =>
                cases hgc : (nodeAt ns j).getChild (String.mk (splitChars p.data).2) with
                | some k =>
                  have hpure : findPure (p.length + 1) ns p = .found k := by
                    simp only [findPure, osPathSplit, if_neg hroot, if_neg hempty,
                      hsc2, hgc]
                  constructor
                  · simp only [findMemo, osPathSplit, hl, if_neg hroot,
                      if_neg hempty, hfm, hgc]
                    exact hpure.symm
                  · simp only [findMemo, osPathSplit, hl, if_neg hroot,
                      if_neg hempty, hfm, hgc]
                    intro e he
                    rcases mem_setKey he with h | h
                    · rw [h]
                      exact hpure
                    · exact hrec.2 _ h
                | none =>
                  have hpure : findPure (p.length + 1) ns p = .notFound := by
                    simp only [findPure, osPathSplit, if_neg hroot, if_neg hempty,
                      hsc2, hgc]
                  constructor
                  · simp only [findMemo, osPathSplit, hl, if_neg hroot,
                      if_neg hempty, hfm, hgc]
                    exact hpure.symm
                  · simp only [findMemo, osPathSplit, hl, if_neg hroot,
                      if_neg hempty, hfm, hgc]
                    exact hrec.2
              | diverge =>
                have hpure : findPure (p.length + 1) ns p = .diverge := by
                  simp only [findPure, osPathSplit, if_neg hroot, if_neg hempty, hsc2]
                constructor
                · simp only [findMemo, osPathSplit, hl, if_neg hroot,
                    if_neg hempty, hfm]
                  exact hpure.symm
                · simp only [findMemo, osPathSplit, hl, if_neg hroot,
                    if_neg hempty, hfm]
                  exact hrec.2
              | invalid =>
                have hpure : findPure (p.length + 1) ns p = .invalid := by
                  simp only [findPure, osPathSplit, if_neg hroot, if_neg hempty, hsc2]
                constructor
                · simp only [findMemo, osPathSplit, hl, if_neg hroot,
                    if_neg hempty, hfm]
                  exact hpure.symm
                · simp only [findMemo, osPathSplit, hl, if_neg hroot,
                    if_neg hempty, hfm]
                  exact hrec.2
              | notFound =>
                have hpure : findPure (p.length + 1) ns p = .notFound := by
                  simp only [findPure, osPathSplit, if_neg hroot, if_neg hempty, hsc2]
                constructor
                · simp only [findMemo, osPathSplit, hl, if_neg hroot,
                    if_neg hempty, hfm]
                  exact hpure.symm
                · simp only [findMemo, osPathSplit, hl, if_neg hroot,
                    if_neg hempty, hfm]
                  exact hrec.2

/-! ### Claims about `find`, `increment` and the cache -/

/-- `find(".")` hits the empty-head base case and raises. -/
theorem findPure_dot (ns : List HistoNode) : ∀ f', findPure (f' + 1) ns "." = .invalid := by
  intro f'
  have h1 : osPathSplit "." = ("", ".") := by decide
  simp [findPure, h1]

/-- `find("./ROOT")` splits into `(".", "ROOT")`, recurses on `"."` and
raises `InvalidPathError`. -/
theorem findPure_root (ns : List HistoNode) : ∀ f, 2 ≤ f → findPure f ns "./ROOT" = .invalid := by
  intro f hf
  obtain ⟨f'', rfl⟩ : ∃ k, f = k + 2 := ⟨f - 2, by omega⟩
  have h1 : osPathSplit "./ROOT" = (".", "ROOT") := by decide
  have h2 : osPathSplit "." = ("", ".") := by decide
  simp [findPure, h1, h2]

/-- C10: the bare root path `./ROOT` can never be observed: `insert` accepts
it as a structural no-op (the state is returned unchanged), while `find` and
hence `increment` always raise `InvalidPathError` on it, before and after
such an insert, and no counter is ever touched. -/
theorem C10_root_path_rejected (t : HistoTree) (a : ℚ)
    (hok : CacheOK t.nodes t.cache) :
    t.insert "./ROOT" = .ok t ∧
    (findMemo (FIND_FUEL "./ROOT") t.nodes t.cache "./ROOT").1 = .invalid ∧
    (t.increment "./ROOT" a).1 = .error .invalidPath ∧
    (t.increment "./ROOT" a).2.nodes = t.nodes := by
  have hfind : (findMemo (FIND_FUEL "./ROOT") t.nodes t.cache "./ROOT").1 = .invalid := by
    rw [(findMemo_agree ("./ROOT".length + 1) "./ROOT" (by omega)
      (FIND_FUEL "./ROOT") t.nodes t.cache hok (le_refl _)).1]
    exact findPure_root t.nodes _ (by decide)
  obtain ⟨r, c', hx⟩ : ∃ r c',
      findMemo (FIND_FUEL "./ROOT") t.nodes t.cache "./ROOT" = (r, c') := ⟨_, _, rfl⟩
  rw [hx] at hfind
  have hr : r = FindRes.invalid := hfind
  subst hr
  refine ⟨?_, by rw [hx], ?_, ?_⟩
  · have hpc : pathComponents "./ROOT" = [".", "ROOT"] := by decide
    simp only [HistoTree.insert, hpc]
    rfl
  · simp only [HistoTree.increment, hx]
  · simp only [HistoTree.increment, hx]

/-- Witness for C10 on a fresh tree. -/
theorem C10_root_path_rejected_witness :
    initTree.insert "./ROOT" = Except.ok initTree ∧
    (initTree.increment "./ROOT" 0).1 = Except.error IncErr.invalidPath := by
  have h := C10_root_path_rejected initTree 0 (by decide)
  exact ⟨h.1, h.2.2.1⟩

/-- C6: `record_observation` (`increment`) on a well-formed path whose node
does not exist signals the not-found error (in the source the raise at the
`if node == None` site, using the `InvalidPathError` class) and leaves every
node — structure and counters — unchanged.  (The memoization cache may gain
sound positive entries for existing ancestors.) -/
theorem C6_record_not_found (t : HistoTree) (p : String) (a : ℚ)
    (c1 : List (String × ℕ))
    (hfm : findMemo (FIND_FUEL p) t.nodes t.cache p = (.notFound, c1)) :
    (t.increment p a).1 = .error .notFound ∧
    (t.increment p a).2.nodes = t.nodes := by
  refine ⟨?_, ?_⟩ <;> simp only [HistoTree.increment, hfm]

/-- Witness for C6: recording at the missing path `./ROOT/x`. -/
theorem C6_record_not_found_witness :
    (exA.increment "./ROOT/x" 0).1 = Except.error IncErr.notFound ∧
    (exA.increment "./ROOT/x" 0).2.nodes = exA.nodes :=
  C6_record_not_found exA "./ROOT/x" 0 [] (by decide)

/-- `str.split` never returns an empty list. -/
theorem splitSep_ne_nil (l : List Char) : splitSep l ≠ [] := by
  induction l with
  | nil => simp [splitSep]
  | cons c rest ih =>
    rw [splitSep]
    by_cases h : c = '/'
    · simp [h]
    · rw [if_neg h]
      cases hs : splitSep rest with
      | nil => simp
      | cons g gs => simp

theorem pathComponents_ne_nil (p : String) : pathComponents p ≠ [] := by
  unfold pathComponents
  intro h
  exact splitSep_ne_nil _ (List.map_eq_nil_iff.mp h)

/-- C5 counterexample: two paths without the `./ROOT` prefix that do NOT
fail with `InvalidPathError`: `insert "."` raises `IndexError` (evaluating
`dirs[1]` on the one-element split), and `increment "/"` never terminates
(`os.path.split` returns `"/"` unchanged, modelled by `diverge`). -/
theorem C5_counterexample :
    initTree.insert "." = .error .indexError ∧
    InsertErr.indexError ≠ InsertErr.invalidPath ∧
    (initTree.increment "/" 0).1 = .error .diverge ∧
    IncErr.diverge ≠ IncErr.invalidPath ∧ IncErr.diverge ≠ IncErr.notFound :=
  ⟨by decide, by decide, by decide, by decide, by decide⟩

/-- C5 (amended): for a path whose stripped components do not start with the
two segments `.`, `ROOT`, `insert` raises `InvalidPathError` — except for
the bare-dot path (components `["."]`), which raises Python's `IndexError`;
and `increment` on any path that does not start with a slash (on which
`find`'s recursion would not terminate) and does not carry the two-segment
prefix in `os.path.split`'s sense raises `InvalidPathError` and leaves all
nodes unchanged. -/
theorem C5_bad_prefix_errors (t : HistoTree) (p : String) (a : ℚ)
    (hok : CacheOK t.nodes t.cache) :
    ((pathComponents p).take 2 ≠ [".", "ROOT"] →
      t.insert p = .error (if pathComponents p = ["."] then InsertErr.indexError
                           else InsertErr.invalidPath)) ∧
    (p.data.head? ≠ some '/' → p ≠ "./ROOT" → ¬ ("./ROOT/".data <+: p.data) →
      (t.increment p a).1 = .error .invalidPath ∧
      (t.increment p a).2.nodes = t.nodes) := by
  constructor
  · intro hins
    cases hpc : pathComponents p with
    | nil => exact absurd hpc (pathComponents_ne_nil p)
    | cons d0 rest0 =>
      simp only [HistoTree.insert, hpc]
      by_cases h0 : d0 = "."
      · subst h0
        rw [if_neg (show ¬ ("." : String) ≠ "." by simp)]
        cases rest0 with
        | nil => simp
        | cons d1 rest =>
          have hd1 : d1 ≠ "ROOT" := by
            intro h
            apply hins
            rw [hpc, h]
            rfl
          simp [hd1]
      · simp [h0]
  · intro hs h6 h7
    have hinv : (findMemo (FIND_FUEL p) t.nodes t.cache p).1 = .invalid := by
      rw [(findMemo_agree (p.length + 1) p (by omega) (FIND_FUEL p)
        t.nodes t.cache hok (le_refl _)).1]
      exact findPure_invalid_chain (p.length + 1) p (by omega) hs h6 h7 _ t.nodes
        (le_refl _)
    obtain ⟨r, c', hx⟩ : ∃ r c',
        findMemo (FIND_FUEL p) t.nodes t.cache p = (r, c') := ⟨_, _, rfl⟩
    rw [hx] at hinv
    have hr : r = FindRes.invalid := hinv
    subst hr
    refine ⟨?_, ?_⟩ <;> simp only [HistoTree.increment, hx]

/-- Witness for C5 (amended) at the prefix-less path `x`. -/
theorem C5_bad_prefix_errors_witness :
    initTree.insert "x" = Except.error InsertErr.invalidPath ∧
    (initTree.increment "x" 0).1 = Except.error IncErr.invalidPath := by
  have h := C5_bad_prefix_errors initTree "x" 0 (by decide)
  refine ⟨?_, (h.2 (by decide) (by decide) (by decide)).1⟩
  have h1 := h.1 (by decide)
  rw [show (if pathComponents "x" = ["."] then InsertErr.indexError
      else InsertErr.invalidPath) = InsertErr.invalidPath by decide] at h1
  exact h1

/-- `found` results of the uncached `find` survive any later insertions:
nodes are never removed and child bindings never change. -/
theorem findPure_mono_insertLoop : ∀ (f : ℕ) (p : String) (ns : List HistoNode)
    (i : ℕ) (ds : List String) {v : ℕ},
    findPure f ns p = .found v → findPure f (insertLoop ns i ds) p = .found v := by
  intro f
  induction f with
  | zero => intro p ns i ds v h; cases h
  | succ n ih =>
    intro p ns i ds v h
    simp only [findPure, osPathSplit] at h ⊢
    by_cases hroot : String.mk (splitChars p.data).1 = "./ROOT"
    · rw [if_pos hroot] at h ⊢
      cases hgc : (nodeAt ns 0).getChild (String.mk (splitChars p.data).2) with
      | some j =>
        rw [hgc] at h
        have hj : j = v := by cases h; rfl
        subst hj
        rw [getChild_insertLoop ds ns i hgc]
      | none =>
        rw [hgc] at h
        cases h
    · rw [if_neg hroot] at h ⊢
      by_cases hempty : String.mk (splitChars p.data).1 = ""
      · rw [if_pos hempty] at h
        cases h
      · rw [if_neg hempty] at h ⊢
        cases hrec : findPure n ns (String.mk (splitChars p.data).1) with
        | found j =>
          rw [hrec] at h
          have h' : (match (nodeAt ns j).getChild (String.mk (splitChars p.data).2) with
              | some k => FindRes.found k
              | none => FindRes.notFound) = FindRes.found v := h
          cases hgc : (nodeAt ns j).getChild (String.mk (splitChars p.data).2) with
          | some k =>
            rw [hgc] at h'
            have hk : k = v := by cases h'; rfl
            subst hk
            rw [ih _ ns i ds hrec]
            show (match (nodeAt (insertLoop ns i ds) j).getChild
                (String.mk (splitChars p.data).2) with
              | some k2 => FindRes.found k2
              | none => FindRes.notFound) = FindRes.found k
            rw [getChild_insertLoop ds ns i hgc]
          | none =>
            rw [hgc] at h'
            cases h' 
        | diverge => rw [hrec] at h; cases h
        | invalid => rw [hrec] at h; cases h
        | notFound => rw [hrec] at h; cases h

/-- C8 counterexample: for the well-formed path `"./ROOT/a "` (trailing
blank) `find` reports not-found; `insert` then succeeds and creates a node
(named `"a"`, since `insert` strips whitespace but `find` does not); the
subsequent `find` still returns not-found — not the newly created node. -/
theorem C8_counterexample :
    (findMemo (FIND_FUEL "./ROOT/a ") initTree.nodes initTree.cache "./ROOT/a ").1
      = FindRes.notFound ∧
    HistoTree.insert { nodes := initTree.nodes, cache := [] } "./ROOT/a "
      = Except.ok (buildTree ["./ROOT/a "]) ∧
    (buildTree ["./ROOT/a "]).nodes.length = 2 ∧
    (findMemo (FIND_FUEL "./ROOT/a ") (buildTree ["./ROOT/a "]).nodes
      (buildTree ["./ROOT/a "]).cache "./ROOT/a ").1 = FindRes.notFound :=
  ⟨by decide, by decide, by decide, by decide⟩

/-- C8 (amended): not-found results are never cached, so after a failed
`find(p)` followed by a successful `insert(p)`, a fresh `find(p)` recomputes
and returns exactly what the uncached `find` returns on the updated tree —
the stale negative answer is never replayed — and every cached entry remains
a sound positive result.  (When `find`'s split of `p` and `insert`'s split
agree — no surrounding whitespace, no empty segments — that recomputed
answer is the newly created node, as the witness shows.) -/
theorem C8_negative_never_cached (t : HistoTree) (p : String)
    (c1 : List (String × ℕ)) (t2 : HistoTree)
    (hok : CacheOK t.nodes t.cache)
    (hfm : findMemo (FIND_FUEL p) t.nodes t.cache p = (.notFound, c1))
    (hins : HistoTree.insert { nodes := t.nodes, cache := c1 } p = .ok t2) :
    (findMemo (FIND_FUEL p) t2.nodes t2.cache p).1 =
      findPure (FIND_FUEL p) t2.nodes p ∧
    CacheOK t2.nodes t2.cache := by
  have hok1 : CacheOK t.nodes c1 := by
    have h2 := (findMemo_agree (p.length + 1) p (by omega) (FIND_FUEL p)
      t.nodes t.cache hok (le_refl _)).2
    rw [hfm] at h2
    exact h2
  obtain ⟨rest, hnodes, hcache⟩ :
      ∃ rest, t2.nodes = insertLoop t.nodes 0 rest ∧ t2.cache = c1 := by
    unfold HistoTree.insert at hins
    split at hins
    · cases hins
    · split at hins
      · cases hins
      · split at hins
        · cases hins
        · rename_i d1 rest heq
          split at hins
          · cases hins
          · cases hins
            exact ⟨rest, rfl, rfl⟩
  have hok2 : CacheOK t2.nodes t2.cache := by
    rw [hnodes, hcache]
    intro e he
    exact findPure_mono_insertLoop _ _ _ _ _ (hok1 e he)
  exact ⟨(findMemo_agree (p.length + 1) p (by omega) _ t2.nodes t2.cache hok2
    (le_refl _)).1, hok2⟩

/-- Witness for C8 (amended): after the failed `find("./ROOT/a")` and the
insert, the memoized `find` agrees with the uncached one (which now returns
the new node 1, as checked by evaluation in `C3_end_to_end`-style facts). -/
theorem C8_negative_never_cached_witness :
    (findMemo (FIND_FUEL "./ROOT/a") exA.nodes exA.cache "./ROOT/a").1 =
      findPure (FIND_FUEL "./ROOT/a") exA.nodes "./ROOT/a" ∧
    CacheOK exA.nodes exA.cache :=
  C8_negative_never_cached initTree "./ROOT/a" [] exA (by decide) (by decide)
    (by decide)

/-! ### `insert` preserves well-formedness -/

theorem mem_setKey_self (l : List (String × ℕ)) (s : String) (v : ℕ) :
    (s, v) ∈ setKey l s v := by
  induction l with
  | nil => exact List.mem_cons_self _ _
  | cons e rest ih =>
    obtain ⟨k, w⟩ := e
    by_cases h : k = s
    · subst h
      rw [setKey, if_pos rfl]
      exact List.mem_cons_self _ _
    · rw [setKey, if_neg h]
      exact List.mem_cons_of_mem _ ih

theorem mem_setKey_of_mem_ne {l : List (String × ℕ)} {e : String × ℕ}
    (he : e ∈ l) (s : String) (v : ℕ) (hne : e.1 ≠ s) : e ∈ setKey l s v := by
  induction l with
  | nil => cases he
  | cons f rest ih =>
    obtain ⟨k, w⟩ := f
    by_cases h : k = s
    · subst h
      rw [setKey, if_pos rfl]
      rcases List.mem_cons.mp he with h2 | h2
      · exact absurd (congrArg Prod.fst h2) hne
      · exact List.mem_cons_of_mem _ h2
    · rw [setKey, if_neg h]
      rcases List.mem_cons.mp he with h2 | h2
      · exact h2 ▸ List.mem_cons_self _ _
      · exact List.mem_cons_of_mem _ (ih h2)

theorem setKey_of_not_mem {l : List (String × ℕ)} {s : String}
    (h : s ∉ l.map Prod.fst) (v : ℕ) : setKey l s v = l ++ [(s, v)] := by
  induction l with
  | nil => rfl
  | cons e rest ih =>
    obtain ⟨k, w⟩ := e
    have hks : k ≠ s := by
      intro hk
      exact h (by rw [hk]; exact List.mem_cons_self _ _)
    rw [setKey, if_neg hks, ih (fun hm => h (List.mem_cons_of_mem _ hm))]
    rfl

theorem not_mem_keys_of_lookup_none {l : List (String × ℕ)} {s : String}
    (h : l.lookup s = none) : s ∉ l.map Prod.fst := by
  induction l with
  | nil => simp
  | cons e rest ih =>
    obtain ⟨k, w⟩ := e
    by_cases hk : s = k
    · subst hk
      rw [lookup_cons_eq] at h
      cases h
    · rw [lookup_cons_ne hk] at h
      intro hm
      rcases List.mem_cons.mp hm with h2 | h2
      · exact hk (by simpa using h2)
      · exact ih h h2

theorem lookup_ne_none_of_mem {l : List (String × ℕ)} {s : String} {v : ℕ}
    (h : (s, v) ∈ l) : l.lookup s ≠ none := by
  intro hn
  exact not_mem_keys_of_lookup_none hn (List.mem_map_of_mem Prod.fst h)

/-- Fields of untouched nodes (and the parent/name/data of the updated
parent) survive an `insertStep`. -/
theorem insertStep_preserves {ns : List HistoNode} {i : ℕ} (hi : i < ns.length)
    (d : String) {i0 : ℕ} (h0 : i0 < ns.length) :
    (nodeAt (insertStep ns i d) i0).parent = (nodeAt ns i0).parent ∧
    (nodeAt (insertStep ns i d) i0).name = (nodeAt ns i0).name ∧
    (nodeAt (insertStep ns i d) i0).data = (nodeAt ns i0).data ∧
    (nodeAt (insertStep ns i d) i0).children =
      (if i0 = i then setKey (nodeAt ns i).children d ns.length
       else (nodeAt ns i0).children) := by
  by_cases hii : i0 = i
  · subst hii
    rw [nodeAt_insertStep_self d hi, if_pos rfl]
    exact ⟨rfl, rfl, rfl, rfl⟩
  · rw [nodeAt_insertStep_other d hii h0, if_neg hii]
    exact ⟨rfl, rfl, rfl, rfl⟩

/-- One creation step preserves well-formedness. -/
theorem wf_insertStep {ns : List HistoNode} (hwf : WF ns) {i : ℕ}
    (hi : i < ns.length) {d : String}
    (hgc : (nodeAt ns i).getChild d = none) : WF (insertStep ns i d) := by
  obtain ⟨w1, w2, w3, w4, w5, w6, w7⟩ := hwf
  have hnewlen := insertStep_length ns i d
  have hdnotmem : d ∉ (nodeAt ns i).children.map Prod.fst :=
    not_mem_keys_of_lookup_none hgc
  have hnew := nodeAt_insertStep_new d hi
  refine ⟨by omega, ?_, ?_, ?_, ?_, ?_, ?_⟩
  · exact (insertStep_preserves hi d w1).1.trans w2
  · exact (insertStep_preserves hi d w1).2.1.trans w3
  · -- child entries
    intro i0 hi0 e he
    rw [hnewlen] at hi0
    by_cases h0 : i0 < ns.length
    · rw [(insertStep_preserves hi d h0).2.2.2] at he
      by_cases hii : i0 = i
      · subst hii
        rw [if_pos rfl] at he
        rcases mem_setKey he with h | h
        · subst h
          refine ⟨hi, by omega, ?_, ?_⟩
          · rw [hnew]
          · rw [hnew]
        · obtain ⟨ha, hb, hc, hd2⟩ := w4 i0 h0 e h
          have hb' : e.2 < ns.length := hb
          refine ⟨ha, by omega, ?_, ?_⟩
          · rw [(insertStep_preserves hi d hb').1, hc]
          · rw [(insertStep_preserves hi d hb').2.1, hd2]
      · rw [if_neg hii] at he
        obtain ⟨ha, hb, hc, hd2⟩ := w4 i0 h0 e he
        refine ⟨ha, by omega, ?_, ?_⟩
        · rw [(insertStep_preserves hi d hb).1, hc]
        · rw [(insertStep_preserves hi d hb).2.1, hd2]
    · have h0' : i0 = ns.length := by omega
      subst h0'
      rw [hnew] at he
      cases he
  · -- every non-root node is registered with its parent
    intro j hj hj0
    rw [hnewlen] at hj
    by_cases h0 : j < ns.length
    · obtain ⟨q, hq, hqp, hqm⟩ := w5 j h0 hj0
      refine ⟨q, hq, ?_, ?_⟩
      · rw [(insertStep_preserves hi d h0).1, hqp]
      · rw [(insertStep_preserves hi d h0).2.1,
          (insertStep_preserves hi d (by omega : q < ns.length)).2.2.2]
        by_cases hqi : q = i
        · subst hqi
          rw [if_pos rfl]
          have hname : (nodeAt ns j).name ≠ d := by
            intro hn
            exact lookup_ne_none_of_mem (hn ▸ hqm) hgc
          exact mem_setKey_of_mem_ne hqm d ns.length hname
        · rw [if_neg hqi]
          exact hqm
    · have h0' : j = ns.length := by omega
      subst h0'
      refine ⟨i, hi, ?_, ?_⟩
      · rw [hnew]
      · rw [hnew, (insertStep_preserves hi d hi).2.2.2, if_pos rfl]
        exact mem_setKey_self _ _ _
  · -- child keys stay distinct
    intro i0 hi0
    rw [hnewlen] at hi0
    by_cases h0 : i0 < ns.length
    · rw [(insertStep_preserves hi d h0).2.2.2]
      by_cases hii : i0 = i
      · subst hii
        rw [if_pos rfl, setKey_of_not_mem hdnotmem]
        rw [List.map_append]
        simp only [List.map_cons, List.map_nil]
        exact List.Nodup.append (w6 i0 h0) (List.nodup_singleton d)
          (by simpa using fun hd2 => hdnotmem hd2)
      · rw [if_neg hii]
        exact w6 i0 h0
    · have h0' : i0 = ns.length := by omega
      subst h0'
      rw [hnew]
      exact List.nodup_nil
  · -- data vectors keep their eight slots
    intro i0 hi0
    rw [hnewlen] at hi0
    by_cases h0 : i0 < ns.length
    · rw [(insertStep_preserves hi d h0).2.2.1]
      exact w7 i0 h0
    · have h0' : i0 = ns.length := by omega
      subst h0'
      rw [hnew]
      rfl

/-- The whole insertion walk preserves well-formedness. -/
theorem wf_insertLoop (ds : List String) :
    ∀ ns i, WF ns → i < ns.length → WF (insertLoop ns i ds) := by
  induction ds with
  | nil => intro ns i hwf _; exact hwf
  | cons d rest ih =>
    intro ns i hwf hi
    rw [insertLoop]
    cases hgc : (nodeAt ns i).getChild d with
    | some j =>
      have hgc' : (nodeAt ns i).children.lookup d = some j := hgc
      have hj : j < ns.length :=
        (hwf.2.2.2.1 i hi (d, j) (lookup_mem hgc')).2.1
      exact ih ns j hwf hj
    | none =>
      exact ih _ _ (wf_insertStep hwf hi hgc)
        (by rw [insertStep_length]; omega)

/-- A successful `insert` preserves well-formedness. -/
theorem wf_insert {t t' : HistoTree} {p : String} (hwf : WF t.nodes)
    (h : t.insert p = .ok t') : WF t'.nodes := by
  unfold HistoTree.insert at h
  split at h
  · cases h
  · split at h
    · cases h
    · split at h
      · cases h
      · rename_i d1 rest heq
        split at h
        · cases h
        · cases h
          exact wf_insertLoop rest t.nodes 0 hwf hwf.1

/-- Every tree built by a sequence of `insert` calls is well-formed. -/
theorem wf_buildTree (ps : List String) : WF (buildTree ps).nodes := by
  suffices hgen : ∀ t : HistoTree, WF t.nodes →
      WF (ps.foldl (fun t p => match t.insert p with
        | .ok t' => t' | .error _ => t) t).nodes by
    exact hgen initTree (by decide)
  induction ps with
  | nil => intro t h; exact h
  | cons p rest ih =>
    intro t h
    rw [List.foldl_cons]
    cases hins : t.insert p with
    | ok t' => exact ih t' (wf_insert h hins)
    | error e => exact ih t h

/-! ### Ancestor chains and `full_path_name` -/

/-- In a well-formed arena a parent index is smaller than its child and in
range. -/
theorem parent_lt {ns : List HistoNode} (hwf : WF ns) {j q : ℕ}
    (hj : j < ns.length) (hq : (nodeAt ns j).parent = some q) :
    q < j ∧ q < ns.length := by
  have hj0 : j ≠ 0 := by
    intro h
    subst h
    rw [hwf.2.1] at hq
    cases hq
  obtain ⟨p, hp, hpar, _⟩ := hwf.2.2.2.2.1 j hj (Nat.pos_of_ne_zero hj0)
  rw [hpar] at hq
  cases hq
  exact ⟨hp, lt_trans hp hj⟩

/-- The root is the only node without a parent. -/
theorem parent_none_iff {ns : List HistoNode} (hwf : WF ns) {j : ℕ}
    (hj : j < ns.length) : (nodeAt ns j).parent = none ↔ j = 0 := by
  constructor
  · intro h
    by_contra h0
    obtain ⟨p, _, hpar, _⟩ := hwf.2.2.2.2.1 j hj (Nat.pos_of_ne_zero h0)
    rw [h] at hpar
    cases hpar
  · intro h
    subst h
    exact hwf.2.1

/-- The ancestor chain always starts at its argument. -/
theorem ancChain_head (f : ℕ) (ns : List HistoNode) (j : ℕ) :
    ∃ rest, ancChain f ns j = j :: rest := by
  cases f with
  | zero => exact ⟨[], rfl⟩
  | succ k =>
    rw [ancChain]
    exact ⟨_, rfl⟩

/-- Fuel of at least the node index is enough for the ancestor chain. -/
theorem ancChain_stable {ns : List HistoNode} (hwf : WF ns) :
    ∀ (n j : ℕ), j < n → j < ns.length → ∀ f, j ≤ f →
    ancChain f ns j = ancChain j ns j := by
  intro n
  induction n with
  | zero => intro j h; omega
  | succ m ih =>
    intro j hj hjlen f hf
    cases hpar : (nodeAt ns j).parent with
    | none =>
      cases f with
      | zero =>
        cases j with
        | zero => rfl
        | succ k => omega
      | succ f' =>
        simp only [ancChain, hpar]
        cases j with
        | zero => rfl
        | succ k =>
          simp only [ancChain, hpar]
    | some q =>
      obtain ⟨hqj, hqlen⟩ := parent_lt hwf hjlen hpar
      have hj1 : 1 ≤ j := by omega
      obtain ⟨f', rfl⟩ : ∃ k, f = k + 1 := ⟨f - 1, by omega⟩
      obtain ⟨j', rfl⟩ : ∃ k, j = k + 1 := ⟨j - 1, by omega⟩
      simp only [ancChain, hpar]
      rw [ih q (by omega) hqlen f' (by omega), ih q (by omega) hqlen j' (by omega)]

/-- Chain step at a node with a parent. -/
theorem anc_cons {ns : List HistoNode} (hwf : WF ns) {j q : ℕ}
    (hj : j < ns.length) (hpar : (nodeAt ns j).parent = some q) :
    anc ns j = j :: anc ns q := by
  obtain ⟨hqj, hqlen⟩ := parent_lt hwf hj hpar
  obtain ⟨j', rfl⟩ : ∃ k, j = k + 1 := ⟨j - 1, by omega⟩
  simp only [anc, ancChain, hpar]
  rw [ancChain_stable hwf (q + 1) q (by omega) hqlen j' (by omega)]

/-- Chain at a parentless node. -/
theorem anc_none {ns : List HistoNode} {j : ℕ}
    (hpar : (nodeAt ns j).parent = none) : anc ns j = [j] := by
  cases j with
  | zero => rfl
  | succ k =>
    simp only [anc, ancChain, hpar]

/-- Every ancestor chain ends at the root. -/
theorem anc_getLast {ns : List HistoNode} (hwf : WF ns) :
    ∀ (n j : ℕ), j < n → j < ns.length → (anc ns j).getLast? = some 0 := by
  intro n
  induction n with
  | zero => intro j h; omega
  | succ m ih =>
    intro j hj hjlen
    cases hpar : (nodeAt ns j).parent with
    | none =>
      have hj0 : j = 0 := (parent_none_iff hwf hjlen).mp hpar
      subst hj0
      rw [anc_none hpar]
      rfl
    | some q =>
      obtain ⟨hqj, hqlen⟩ := parent_lt hwf hjlen hpar
      rw [anc_cons hwf hjlen hpar]
      have hq := ih q (by omega) hqlen
      have hsplit : (j :: anc ns q) = [j] ++ anc ns q := rfl
      rw [hsplit, List.getLast?_append, hq]
      rfl

/-- `joinSegs` on a cons with nonempty tail. -/
theorem joinSegs_cons_ne (s : String) {rest : List String} (h : rest ≠ []) :
    joinSegs (s :: rest) = s ++ "/" ++ joinSegs rest := by
  cases rest with
  | nil => exact absurd rfl h
  | cons a l => rfl

/-- Merging the last two segments with a separator. -/
theorem joinSegs_merge (X : List String) (a b : String) :
    joinSegs (X ++ [a ++ "/" ++ b]) = joinSegs (X ++ [a, b]) := by
  induction X with
  | nil => rfl
  | cons x X ih =>
    rw [List.cons_append, List.cons_append,
      joinSegs_cons_ne x (by simp), joinSegs_cons_ne x (by simp), ih]

/-- The accumulator loop of `full_path_name` joins the ancestor names above
the start node onto the accumulator. -/
theorem fullPathLoop_eq {ns : List HistoNode} (hwf : WF ns) :
    ∀ (n j : ℕ), j < n → j < ns.length → ∀ f, j ≤ f → ∀ acc,
    fullPathLoop f ns j acc =
      joinSegs ((((anc ns j).reverse).map (fun k => (nodeAt ns k).name)).dropLast
        ++ [acc]) := by
  intro n
  induction n with
  | zero => intro j h; omega
  | succ m ih =>
    intro j hj hjlen f hf acc
    cases hpar : (nodeAt ns j).parent with
    | none =>
      rw [anc_none hpar]
      cases f with
      | zero => rfl
      | succ f' =>
        simp only [fullPathLoop, hpar]
        rfl
    | some q =>
      obtain ⟨hqj, hqlen⟩ := parent_lt hwf hjlen hpar
      obtain ⟨f', rfl⟩ : ∃ k, f = k + 1 := ⟨f - 1, by omega⟩
      simp only [fullPathLoop, hpar]
      rw [ih q (by omega) hqlen f' (by omega) ((nodeAt ns q).name ++ "/" ++ acc)]
      rw [joinSegs_merge]
      rw [anc_cons hwf hjlen hpar]
      obtain ⟨rest, hqc⟩ := ancChain_head q ns q
      have hancq : anc ns q = q :: rest := hqc
      rw [hancq]
      simp only [List.reverse_cons, List.map_append, List.map_cons, List.map_nil,
        List.dropLast_concat]
      rw [List.append_assoc]
      rfl

/-- C9 (amended): `full_path_name` returns the names on the path from the
root to the node joined with the separator; the first segment is the root's
own name `"ROOT"` — the `"./"` of the input convention is never reinstated —
so for every node below the root the result begins with `"ROOT/"`. -/
theorem C9_full_path_name (t : HistoTree) (i : ℕ) (hwf : WF t.nodes)
    (hi : i < t.nodes.length) :
    t.fullPathName i = joinSegs (ancSegs t.nodes i) ∧
    (ancSegs t.nodes i).head? = some "ROOT" ∧
    (i ≠ 0 → ∃ r, t.fullPathName i = "ROOT/" ++ r) := by
  have h1 : t.fullPathName i = joinSegs (ancSegs t.nodes i) := by
    unfold HistoTree.fullPathName
    rw [fullPathLoop_eq hwf (i + 1) i (by omega) hi t.nodes.length (by omega)]
    obtain ⟨rest, hic⟩ := ancChain_head i t.nodes i
    have hanci : anc t.nodes i = i :: rest := hic
    unfold ancSegs
    rw [hanci]
    simp only [List.reverse_cons, List.map_append, List.map_cons, List.map_nil,
      List.dropLast_concat]
  have h2 : (ancSegs t.nodes i).head? = some "ROOT" := by
    unfold ancSegs
    rw [List.head?_map, List.head?_reverse, anc_getLast hwf (i + 1) i (by omega) hi]
    show some ((nodeAt t.nodes 0).name) = some "ROOT"
    rw [hwf.2.2.1]
  refine ⟨h1, h2, ?_⟩
  intro hine
  obtain ⟨q, hq⟩ : ∃ q, (nodeAt t.nodes i).parent = some q := by
    cases hp : (nodeAt t.nodes i).parent with
    | none => exact absurd ((parent_none_iff hwf hi).mp hp) hine
    | some q => exact ⟨q, rfl⟩
  have hlen2 : 2 ≤ (ancSegs t.nodes i).length := by
    unfold ancSegs
    rw [anc_cons hwf hi hq]
    obtain ⟨r2, hq2⟩ := ancChain_head q t.nodes q
    have hancq : anc t.nodes q = q :: r2 := hq2
    rw [hancq]
    simp
  cases hA : ancSegs t.nodes i with
  | nil => rw [hA] at hlen2; simp at hlen2
  | cons s0 tail =>
    cases tail with
    | nil => rw [hA] at hlen2; simp at hlen2
    | cons s1 tail2 =>
      have hhead : s0 = "ROOT" := by
        rw [hA] at h2
        injection h2
      refine ⟨joinSegs (s1 :: tail2), ?_⟩
      rw [h1, hA, hhead, joinSegs_cons_ne _ (by simp),
        show ("ROOT" : String) ++ "/" = "ROOT/" by decide]

/-- Witness for C9 (amended) at the node `./ROOT/a` of the example tree. -/
theorem C9_full_path_name_witness :
    exA.fullPathName 1 = joinSegs (ancSegs exA.nodes 1) ∧
    (ancSegs exA.nodes 1).head? = some "ROOT" ∧
    (1 ≠ 0 → ∃ r, exA.fullPathName 1 = "ROOT/" ++ r) :=
  C9_full_path_name exA 1 (by decide) (by decide)

/-- The child loop of `summarize_histo_data`, as a fold of `sumStep`. -/
theorem summarizeNode_succ (fuel : ℕ) (a : List HistoNode) (i : ℕ) :
    summarizeNode (fuel + 1) a i
      = ((nodeAt a i).children.map Prod.snd).foldl (sumStep fuel i) a := rfl

/-- `sumStep` preserves the arena length (given that the recursive summarize
call does). -/
theorem sumStep_length (fuel i : ℕ) (a : List HistoNode) (j : ℕ)
    (h : (summarizeNode fuel a j).length = a.length) :
    (sumStep fuel i a j).length = a.length := by
  unfold sumStep
  rw [List.length_set]
  exact h

/-- The aggregation pass never adds or removes nodes. -/
theorem summarizeNode_length : ∀ (fuel : ℕ) (a : List HistoNode) (i : ℕ),
    (summarizeNode fuel a i).length = a.length := by
  intro fuel
  induction fuel with
  | zero => intro a i; rfl
  | succ f ih =>
    intro a i
    rw [summarizeNode_succ]
    generalize (nodeAt a i).children.map Prod.snd = l
    induction l generalizing a with
    | nil => rfl
    | cons c l2 ihl =>
      rw [List.foldl_cons, ihl (sumStep f i a c)]
      exact sumStep_length f i a c (ih a c)

/-- `SameShape` is reflexive. -/
theorem sameShape_refl (ns : List HistoNode) : SameShape ns ns :=
  ⟨rfl, fun _ => ⟨rfl, rfl, rfl, rfl⟩⟩

/-- Overwriting one node's counters with a vector of the same length
preserves the shape relation. -/
theorem sameShape_set_data {ns acc : List HistoNode} (h : SameShape ns acc)
    {i : ℕ} (hi : i < acc.length) {d : List ℕ}
    (hd : d.length = (nodeAt acc i).data.length) :
    SameShape ns (acc.set i { nodeAt acc i with data := d }) := by
  refine ⟨by rw [List.length_set]; exact h.1, fun k => ?_⟩
  by_cases hk : i = k
  · subst hk
    rw [nodeAt_set_self _ hi]
    exact ⟨(h.2 i).1, (h.2 i).2.1, (h.2 i).2.2.1, by rw [hd]; exact (h.2 i).2.2.2⟩
  · rw [nodeAt_set_ne _ hk]
    exact h.2 k

/-- `addCounts` keeps the length of its first argument (the parent's
counter vector). -/
theorem addCounts_length (p c : List ℕ) : (addCounts p c).length = p.length := by
  simp [addCounts]

/-- Pointwise reading of `addCounts`. -/
theorem addCounts_getD {p c : List ℕ} {b : ℕ} (hb : b < p.length) :
    (addCounts p c).getD b 0 = p.getD b 0 + c.getD b 0 := by
  unfold addCounts
  rw [List.getD_eq_getElem?_getD, List.getElem?_map, List.getElem?_range hb]
  rfl

/-- Mapping then summing distributes over `flatMap`. -/
theorem sum_flatMap_nat {α β : Type} (f : α → List β) (g : β → ℕ) :
    ∀ l : List α,
    ((l.flatMap f).map g).sum = (l.map (fun a => ((f a).map g).sum)).sum := by
  intro l
  induction l with
  | nil => rfl
  | cons a l2 ih =>
    rw [List.flatMap_cons, List.map_append, List.sum_append, ih,
      List.map_cons, List.sum_cons]

/-- `flatMap` only depends on the function's values on the list. -/
theorem flatMapCongr {α β : Type} {l : List α} {f g : α → List β}
    (h : ∀ a ∈ l, f a = g a) : l.flatMap f = l.flatMap g := by
  induction l with
  | nil => rfl
  | cons a l2 ih =>
    rw [List.flatMap_cons, List.flatMap_cons, h a (List.mem_cons_self a l2),
      ih (fun x hx => h x (List.mem_cons_of_mem a hx))]

/-- A node is in its own descendant list. -/
theorem descList_head_mem (fuel : ℕ) (ns : List HistoNode) (i : ℕ) :
    i ∈ descList fuel ns i := by
  cases fuel with
  | zero => simp [descList]
  | succ f => exact List.mem_cons_self _ _

/-- Descendant indices are at least the subtree root and in range. -/
theorem mem_descList_ge {ns : List HistoNode} (hwf : WF ns) :
    ∀ (fuel i : ℕ), i < ns.length → ∀ k ∈ descList fuel ns i,
    i ≤ k ∧ k < ns.length := by
  intro fuel
  induction fuel with
  | zero =>
    intro i hi k hk
    simp [descList] at hk
    subst hk
    exact ⟨le_refl _, hi⟩
  | succ f ih =>
    intro i hi k hk
    rw [descList] at hk
    rcases List.mem_cons.mp hk with h | h
    · subst h; exact ⟨le_refl _, hi⟩
    · obtain ⟨c, hc, hkc⟩ := List.mem_flatMap.mp h
      obtain ⟨e, he, hec⟩ := List.mem_map.mp hc
      subst hec
      obtain ⟨h1, h2, _, _⟩ := hwf.2.2.2.1 i hi e he
      have := ih e.2 h2 k hkc
      exact ⟨le_trans (le_of_lt h1) this.1, this.2⟩

/-- One more unit of fuel changes nothing once the fuel covers the longest
possible child chain below the node. -/
theorem descList_succ_eq {ns : List HistoNode} (hwf : WF ns) :
    ∀ (f i : ℕ), i < ns.length → ns.length ≤ i + f + 1 →
    descList (f + 1) ns i = descList f ns i := by
  intro f
  induction f with
  | zero =>
    intro i hi hlen
    cases hch : (nodeAt ns i).children with
    | nil => simp [descList, hch]
    | cons e rest =>
      obtain ⟨h1, h2, _, _⟩ :=
        hwf.2.2.2.1 i hi e (by rw [hch]; exact List.mem_cons_self _ _)
      omega
  | succ f2 ih =>
    intro i hi hlen
    rw [descList, descList]
    congr 1
    apply flatMapCongr
    intro c hc
    obtain ⟨e, he, hec⟩ := List.mem_map.mp hc
    subst hec
    obtain ⟨h1, h2, _, _⟩ := hwf.2.2.2.1 i hi e he
    exact ih e.2 h2 (by omega)

/-- Any fuel covering the longest chain computes the canonical descendant
list. -/
theorem descList_eq_descs {ns : List HistoNode} (hwf : WF ns) :
    ∀ (f i : ℕ), i < ns.length → ns.length ≤ i + f + 1 →
    descList f ns i = descs ns i := by
  have key : ∀ (f i : ℕ), i < ns.length → ns.length ≤ i + f + 1 →
      descList f ns i = descList (ns.length - 1 - i) ns i := by
    intro f
    induction f with
    | zero =>
      intro i hi hlen
      have h0 : ns.length - 1 - i = 0 := by omega
      rw [h0]
    | succ f2 ih =>
      intro i hi hlen
      by_cases hcase : ns.length ≤ i + f2 + 1
      · rw [descList_succ_eq hwf f2 i hi hcase]
        exact ih i hi hcase
      · have h1 : ns.length - 1 - i = f2 + 1 := by omega
        rw [h1]
  intro f i hi hlen
  rw [key f i hi hlen]
  unfold descs
  rw [key ns.length i hi (by omega)]

/-- The descendant list is closed under taking children (at saturating
fuel). -/
theorem mem_descList_child {ns : List HistoNode} (hwf : WF ns) :
    ∀ (f i : ℕ), i < ns.length → ns.length ≤ i + f + 1 →
    ∀ k ∈ descList f ns i, ∀ e ∈ (nodeAt ns k).children,
    e.2 ∈ descList f ns i := by
  intro f
  induction f with
  | zero =>
    intro i hi hlen k hk e he
    simp [descList] at hk
    subst hk
    obtain ⟨h1, h2, _, _⟩ := hwf.2.2.2.1 k hi e he
    omega
  | succ f2 ih =>
    intro i hi hlen k hk e he
    rw [descList] at hk ⊢
    rcases List.mem_cons.mp hk with h | h
    · subst h
      refine List.mem_cons.mpr (Or.inr ?_)
      exact List.mem_flatMap.mpr
        ⟨e.2, List.mem_map.mpr ⟨e, he, rfl⟩, descList_head_mem f2 ns e.2⟩
    · obtain ⟨c, hc, hkc⟩ := List.mem_flatMap.mp h
      obtain ⟨e2, he2, hec⟩ := List.mem_map.mp hc
      subst hec
      obtain ⟨h1, h2, _, _⟩ := hwf.2.2.2.1 i hi e2 he2
      refine List.mem_cons.mpr (Or.inr ?_)
      exact List.mem_flatMap.mpr
        ⟨e2.2, List.mem_map.mpr ⟨e2, he2, rfl⟩, ih e2.2 h2 (by omega) k hkc e he⟩

/-- Every node of a well-formed arena is in the root's descendant list. -/
theorem mem_descs_root {ns : List HistoNode} (hwf : WF ns) :
    ∀ (n v : ℕ), v < n → v < ns.length → v ∈ descs ns 0 := by
  intro n
  induction n with
  | zero => intro v h; omega
  | succ m ih =>
    intro v hv hvlen
    by_cases h0 : v = 0
    · subst h0
      exact descList_head_mem _ _ _
    · obtain ⟨p, hp, hpar, hmem⟩ :=
        hwf.2.2.2.2.1 v hvlen (Nat.pos_of_ne_zero h0)
    
      exact mem_descList_child hwf ns.length 0 hwf.1 (by omega) p
        (ih p (by omega) (by omega)) ((nodeAt ns v).name, v) hmem

/-- A node is in its own ancestor chain. -/
theorem anc_head_mem (ns : List HistoNode) (j : ℕ) : j ∈ anc ns j := by
  obtain ⟨rest, h⟩ := ancChain_head j ns j
  rw [anc, h]
  exact List.mem_cons_self _ _

/-- Ancestors have smaller indices. -/
theorem mem_anc_le {ns : List HistoNode} (hwf : WF ns) :
    ∀ (n j : ℕ), j < n → j < ns.length → ∀ a ∈ anc ns j, a ≤ j := by
  intro n
  induction n with
  | zero => intro j h; omega
  | succ m ih =>
    intro j hj hjlen a ha
    cases hpar : (nodeAt ns j).parent with
    | none =>
      rw [anc_none hpar] at ha
      simp at ha
      omega
    | some q =>
      obtain ⟨hqj, hqlen⟩ := parent_lt hwf hjlen hpar
      rw [anc_cons hwf hjlen hpar] at ha
      rcases List.mem_cons.mp ha with h | h
      · omega
      · exact le_trans (ih q (by omega) hqlen a h) (by omega)

/-- An ancestor of `j` is `j` itself or an ancestor of `j`'s parent. -/
theorem mem_anc_elim {ns : List HistoNode} (hwf : WF ns) {j a : ℕ}
    (hj : j < ns.length) (ha : a ∈ anc ns j) :
    a = j ∨ ∃ q, (nodeAt ns j).parent = some q ∧ a ∈ anc ns q := by
  cases hpar : (nodeAt ns j).parent with
  | none =>
    rw [anc_none hpar] at ha
    simp at ha
    exact Or.inl ha
  | some q =>
    rw [anc_cons hwf hj hpar] at ha
    rcases List.mem_cons.mp ha with h | h
    · exact Or.inl h
    · exact Or.inr ⟨q, rfl, h⟩

/-- The ancestor chain is closed under taking parents. -/
theorem anc_parent_mem {ns : List HistoNode} (hwf : WF ns) :
    ∀ (n k : ℕ), k < n → k < ns.length → ∀ c ∈ anc ns k, ∀ p,
    (nodeAt ns c).parent = some p → p ∈ anc ns k := by
  intro n
  induction n with
  | zero => intro k h; omega
  | succ m ih =>
    intro k hk hklen c hc p hp
    cases hpar : (nodeAt ns k).parent with
    | none =>
      rw [anc_none hpar] at hc
      simp at hc
      subst hc
      rw [hpar] at hp
      cases hp
    | some q =>
      obtain ⟨hqk, hqlen⟩ := parent_lt hwf hklen hpar
      rw [anc_cons hwf hklen hpar] at hc ⊢
      rcases List.mem_cons.mp hc with h | h
      · subst h
        rw [hpar] at hp
        injection hp with hpq
        subst hpq
        exact List.mem_cons.mpr (Or.inr (anc_head_mem ns _))
      · exact List.mem_cons.mpr (Or.inr (ih q (by omega) hqlen c h p hp))

/-- Any two ancestors of the same node are comparable: one is an ancestor
of the other. -/
theorem anc_linear {ns : List HistoNode} (hwf : WF ns) :
    ∀ (n j : ℕ), j < n → j < ns.length →
    ∀ a ∈ anc ns j, ∀ b ∈ anc ns j, a ∈ anc ns b ∨ b ∈ anc ns a := by
  intro n
  induction n with
  | zero => intro j h; omega
  | succ m ih =>
    intro j hj hjlen a ha b hb
    cases hpar : (nodeAt ns j).parent with
    | none =>
      rw [anc_none hpar] at ha hb
      simp at ha hb
      subst ha
      subst hb
      exact Or.inl (anc_head_mem ns b)
    | some q =>
      obtain ⟨hqj, hqlen⟩ := parent_lt hwf hjlen hpar
      rw [anc_cons hwf hjlen hpar] at ha hb
      rcases List.mem_cons.mp ha with h1 | h1
      · subst h1
        exact Or.inr (by rw [anc_cons hwf hjlen hpar]; exact hb)
      · rcases List.mem_cons.mp hb with h2 | h2
        · subst h2
          exact Or.inl
            (by rw [anc_cons hwf hjlen hpar]; exact List.mem_cons.mpr (Or.inr h1))
        · exact ih q (by omega) hqlen a h1 b h2

/-- The subtree root is an ancestor of every node of its subtree. -/
theorem descMem_anc {ns : List HistoNode} (hwf : WF ns) :
    ∀ (f i : ℕ), i < ns.length → ∀ k ∈ descList f ns i, i ∈ anc ns k := by
  intro f
  induction f with
  | zero =>
    intro i hi k hk
    simp [descList] at hk
    subst hk
    exact anc_head_mem ns _
  | succ f2 ih =>
    intro i hi k hk
    rw [descList] at hk
    rcases List.mem_cons.mp hk with h | h
    · subst h
      exact anc_head_mem ns _
    · obtain ⟨c, hc, hkc⟩ := List.mem_flatMap.mp h
      obtain ⟨e, he, hec⟩ := List.mem_map.mp hc
      subst hec
      obtain ⟨h1, h2, hpar, _⟩ := hwf.2.2.2.1 i hi e he
      have hklen : k < ns.length := (mem_descList_ge hwf f2 e.2 h2 k hkc).2
      exact anc_parent_mem hwf (k + 1) k (by omega) hklen e.2
        (ih e.2 h2 k hkc) i hpar

/-- Subtrees of two distinct children of the same node are disjoint. -/
theorem siblings_disjoint {ns : List HistoNode} (hwf : WF ns) {i c d : ℕ}
    (hi : i < ns.length)
    (hc : ∃ nm, (nm, c) ∈ (nodeAt ns i).children)
    (hd : ∃ nm, (nm, d) ∈ (nodeAt ns i).children)
    (hne : c ≠ d) : ∀ v ∈ descs ns c, v ∉ descs ns d := by
  intro v hvc hvd
  obtain ⟨nmc, hmc⟩ := hc
  obtain ⟨nmd, hmd⟩ := hd
  obtain ⟨hic, hclen, hparc, _⟩ := hwf.2.2.2.1 i hi (nmc, c) hmc
  obtain ⟨hid, hdlen, hpard, _⟩ := hwf.2.2.2.1 i hi (nmd, d) hmd
  have hparc2 : (nodeAt ns c).parent = some i := hparc
  have hpard2 : (nodeAt ns d).parent = some i := hpard
  have hclen2 : c < ns.length := hclen
  have hdlen2 : d < ns.length := hdlen
  have hic2 : i < c := hic
  have hid2 : i < d := hid
  have hvlen : v < ns.length := (mem_descList_ge hwf ns.length c hclen2 v hvc).2
  have hca : c ∈ anc ns v := descMem_anc hwf ns.length c hclen2 v hvc
  have hda : d ∈ anc ns v := descMem_anc hwf ns.length d hdlen2 v hvd
  rcases anc_linear hwf (v + 1) v (by omega) hvlen c hca d hda with h | h
  · rcases mem_anc_elim hwf hdlen2 h with he | ⟨q, hq, hcq⟩
    · exact hne he
    · rw [hpard2] at hq
      injection hq with hq2
      subst hq2
      have := mem_anc_le hwf (i + 1) i (by omega) hi c hcq
      omega
  · rcases mem_anc_elim hwf hclen2 h with he | ⟨q, hq, hdq⟩
    · exact hne he.symm
    · rw [hparc2] at hq
      injection hq with hq2
      subst hq2
      have := mem_anc_le hwf (i + 1) i (by omega) hi d hdq
      omega

/-- Distinct keys force distinct values when each value determines its
key. -/
theorem nodup_map_snd_of_fst :
    ∀ {l : List (String × ℕ)}, (l.map Prod.fst).Nodup →
    (∀ e ∈ l, ∀ e2 ∈ l, e.2 = e2.2 → e.1 = e2.1) →
    (l.map Prod.snd).Nodup := by
  intro l
  induction l with
  | nil => intro _ _; exact List.nodup_nil
  | cons e l2 ih =>
    intro hf hinj
    rw [List.map_cons, List.nodup_cons] at hf ⊢
    refine ⟨?_, ih hf.2 (fun a ha b hb hab =>
      hinj a (List.mem_cons_of_mem e ha) b (List.mem_cons_of_mem e hb) hab)⟩
    intro hmem
    obtain ⟨e2, he2, hee⟩ := List.mem_map.mp hmem
    have hkey : e2.1 = e.1 :=
      hinj e2 (List.mem_cons_of_mem e he2) e (List.mem_cons_self e l2) hee
    exact hf.1 (List.mem_map.mpr ⟨e2, he2, hkey⟩)

/-- In a well-formed arena the child indices of a node are distinct. -/
theorem children_snd_nodup {ns : List HistoNode} (hwf : WF ns) {i : ℕ}
    (hi : i < ns.length) : ((nodeAt ns i).children.map Prod.snd).Nodup := by
  apply nodup_map_snd_of_fst (hwf.2.2.2.2.2.1 i hi)
  intro e he e2 he2 hee
  obtain ⟨_, _, _, hn1⟩ := hwf.2.2.2.1 i hi e he
  obtain ⟨_, _, _, hn2⟩ := hwf.2.2.2.1 i hi e2 he2
  rw [← hn1, ← hn2, hee]

/-- `map` only depends on the function's values on the list. -/
theorem mapCongrMem {α β : Type} {l : List α} {f g : α → β}
    (h : ∀ a ∈ l, f a = g a) : l.map f = l.map g := by
  induction l with
  | nil => rfl
  | cons a l2 ih =>
    rw [List.map_cons, List.map_cons, h a (List.mem_cons_self a l2),
      ih (fun x hx => h x (List.mem_cons_of_mem a hx))]

/-- `sumStep` leaves every node other than `i` as the recursive summarize
call left it. -/
theorem nodeAt_sumStep_ne {fuel i : ℕ} {a : List HistoNode} {j k : ℕ}
    (hk : i ≠ k) :
    nodeAt (sumStep fuel i a j) k = nodeAt (summarizeNode fuel a j) k := by
  unfold sumStep
  exact nodeAt_set_ne _ hk

/-- Counter version of `nodeAt_sumStep_ne`. -/
theorem dataAt_sumStep_ne {fuel i : ℕ} {a : List HistoNode} {j k : ℕ}
    (hk : k ≠ i) :
    dataAt (sumStep fuel i a j) k = dataAt (summarizeNode fuel a j) k := by
  unfold dataAt
  rw [nodeAt_sumStep_ne (fun h => hk h.symm)]

/-- `sumStep` adds the summarized child's counters into node `i`. -/
theorem dataAt_sumStep_self {fuel i : ℕ} {a : List HistoNode} {j : ℕ}
    (hi : i < a.length) :
    dataAt (sumStep fuel i a j) i
      = addCounts (dataAt (summarizeNode fuel a j) i)
          (dataAt (summarizeNode fuel a j) j) := by
  unfold sumStep dataAt
  rw [nodeAt_set_self _ (by rw [summarizeNode_length]; exact hi)]

/-- `sumStep` preserves the shape relation. -/
theorem sameShape_sumStep {ns a : List HistoNode} {fuel i j : ℕ}
    (h : SameShape ns (summarizeNode fuel a j)) (hi : i < a.length) :
    SameShape ns (sumStep fuel i a j) := by
  unfold sumStep
  exact sameShape_set_data h
    (by rw [summarizeNode_length]; exact hi) (addCounts_length _ _)

/-- Unfolding of the subtree sum at a node: own counter plus the subtree
sums of the children. -/
theorem subSum_unfold {ns : List HistoNode} (hwf : WF ns) {i : ℕ}
    (hi : i < ns.length) (b : ℕ) :
    subSum ns i b = (dataAt ns i).getD b 0
      + (((nodeAt ns i).children.map Prod.snd).map
          (fun c => subSum ns c b)).sum := by
  unfold subSum descs
  obtain ⟨L, hL⟩ : ∃ L, ns.length = L + 1 := ⟨ns.length - 1, by
    have := hwf.1
    omega⟩
  rw [hL, descList, List.map_cons, List.sum_cons]
  congr 1
  rw [sum_flatMap_nat]
  apply congrArg
  apply mapCongrMem
  intro c hc
  obtain ⟨e, he, hec⟩ := List.mem_map.mp hc
  subst hec
  obtain ⟨h1, h2, _, _⟩ := hwf.2.2.2.1 i hi e he
  rw [descList_eq_descs hwf L e.2 h2 (by omega),
    descList_eq_descs hwf (L + 1) e.2 h2 (by omega)]

/-- Correctness of the child loop of `summarize_histo_data` at node `i`:
processing a duplicate-free list of children of `i` whose subtrees still
hold their original counters (a) keeps the arena shape, (b) installs the
subtree sums throughout each processed child's subtree, (c) accumulates the
children's subtree sums into node `i`, and (d) leaves every other node's
counters alone. -/
theorem summarizeFold_spec {ns : List HistoNode} (hwf : WF ns) {fuel i : ℕ}
    (hi : i < ns.length)
    (IH : ∀ (c : ℕ), c < ns.length → ns.length ≤ c + fuel →
      ∀ (acc : List HistoNode), SameShape ns acc →
      (∀ v ∈ descList fuel ns c, dataAt acc v = dataAt ns v) →
      SameShape ns (summarizeNode fuel acc c) ∧
      (∀ k, k ∉ descList fuel ns c →
        dataAt (summarizeNode fuel acc c) k = dataAt acc k) ∧
      (∀ v ∈ descList fuel ns c, ∀ b, b < 8 →
        (dataAt (summarizeNode fuel acc c) v).getD b 0 = subSum ns v b)) :
    ∀ (l : List ℕ), (∀ c ∈ l, ∃ nm, (nm, c) ∈ (nodeAt ns i).children) →
    l.Nodup → ns.length ≤ i + fuel + 1 →
    ∀ (acc : List HistoNode), SameShape ns acc →
    (∀ c ∈ l, ∀ v ∈ descs ns c, dataAt acc v = dataAt ns v) →
    SameShape ns (l.foldl (sumStep fuel i) acc) ∧
    (∀ c ∈ l, ∀ v ∈ descs ns c, ∀ b, b < 8 →
      (dataAt (l.foldl (sumStep fuel i) acc) v).getD b 0 = subSum ns v b) ∧
    (∀ b, b < 8 → (dataAt (l.foldl (sumStep fuel i) acc) i).getD b 0
      = (dataAt acc i).getD b 0 + (l.map (fun c => subSum ns c b)).sum) ∧
    (∀ k, k ≠ i → (∀ c ∈ l, k ∉ descs ns c) →
      dataAt (l.foldl (sumStep fuel i) acc) k = dataAt acc k) := by
  intro l
  induction l with
  | nil =>
    intro _ _ _ acc hS _
    refine ⟨hS, ?_, ?_, ?_⟩
    · intro c hc
      exact absurd hc (List.not_mem_nil c)
    · intro b _
      simp
    · intro k _ _
      rfl
  | cons c l2 ihl =>
    intro hmem hnd hlen acc hS hData
    obtain ⟨nm, hnmc⟩ := hmem c (List.mem_cons_self c l2)
    obtain ⟨hic, hclen, hparc, _⟩ := hwf.2.2.2.1 i hi (nm, c) hnmc
    have hic2 : i < c := hic
    have hclen2 : c < ns.length := hclen
    have hdesc_eq : descList fuel ns c = descs ns c :=
      descList_eq_descs hwf fuel c hclen2 (by omega)
    obtain ⟨hS1, hF1, hV1⟩ := IH c hclen2 (by omega) acc hS
      (by rw [hdesc_eq]; exact hData c (List.mem_cons_self c l2))
    rw [hdesc_eq] at hF1 hV1
    have hinotc : i ∉ descs ns c := fun hmem2 =>
      absurd (mem_descList_ge hwf ns.length c hclen2 i hmem2).1 (by omega)
    have hdi : dataAt (summarizeNode fuel acc c) i = dataAt acc i := hF1 i hinotc
    have hilen_acc : i < acc.length := by rw [hS.1]; exact hi
    have hlen8 : (dataAt acc i).length = 8 := by
      unfold dataAt
      rw [(hS.2 i).2.2.2]
      exact hwf.2.2.2.2.2.2 i hi
    have hS2 : SameShape ns (sumStep fuel i acc c) := sameShape_sumStep hS1 hilen_acc
    have hstep_i : dataAt (sumStep fuel i acc c) i
        = addCounts (dataAt (summarizeNode fuel acc c) i)
            (dataAt (summarizeNode fuel acc c) c) := dataAt_sumStep_self hilen_acc
    have hmem2 : ∀ d ∈ l2, ∃ nm2, (nm2, d) ∈ (nodeAt ns i).children :=
      fun d hd => hmem d (List.mem_cons_of_mem c hd)
    have hnd2 : l2.Nodup := (List.nodup_cons.mp hnd).2
    have hcne : ∀ d ∈ l2, c ≠ d := fun d hd h => (List.nodup_cons.mp hnd).1 (h ▸ hd)
    have hData2 : ∀ d ∈ l2, ∀ v ∈ descs ns d,
        dataAt (sumStep fuel i acc c) v = dataAt ns v := by
      intro d hd v hv
      obtain ⟨nmd, hnmd⟩ := hmem2 d hd
      obtain ⟨hidd, hdlen, _, _⟩ := hwf.2.2.2.1 i hi (nmd, d) hnmd
      have hvd := mem_descList_ge hwf ns.length d hdlen v hv
      have hvne : v ≠ i := by omega
      have hvnotc : v ∉ descs ns c :=
        siblings_disjoint hwf hi ⟨nmd, hnmd⟩ ⟨nm, hnmc⟩
          (fun h => hcne d hd h.symm) v hv
      rw [dataAt_sumStep_ne hvne, hF1 v hvnotc]
      exact hData d (List.mem_cons_of_mem c hd) v hv
    obtain ⟨hSr, hVr, hSumr, hFrr⟩ :=
      ihl hmem2 hnd2 hlen (sumStep fuel i acc c) hS2 hData2
    rw [List.foldl_cons]
    refine ⟨hSr, ?_, ?_, ?_⟩
    · intro d hd v hv b hb
      rcases List.mem_cons.mp hd with h | h
      · subst h
        have hvge := mem_descList_ge hwf ns.length d hclen2 v hv
        have hvne : v ≠ i := by omega
        have hvnot2 : ∀ d2 ∈ l2, v ∉ descs ns d2 := by
          intro d2 hd2
          obtain ⟨nmd, hnmd⟩ := hmem2 d2 hd2
          exact siblings_disjoint hwf hi ⟨nm, hnmc⟩ ⟨nmd, hnmd⟩ (hcne d2 hd2) v hv
        rw [hFrr v hvne hvnot2, dataAt_sumStep_ne hvne]
        exact hV1 v hv b hb
      · exact hVr d h v hv b hb
    · intro b hb
      rw [hSumr b hb, hstep_i,
        addCounts_getD (by rw [hdi, hlen8]; exact hb)]
      rw [hdi, hV1 c (descList_head_mem _ _ _) b hb]
      rw [List.map_cons, List.sum_cons]
      omega
    · intro k hk hknot
      rw [hFrr k hk (fun d hd => hknot d (List.mem_cons_of_mem c hd)),
        dataAt_sumStep_ne hk, hF1 k (hknot c (List.mem_cons_self c l2))]

/-- Correctness of `HistoNode.summarize_histo_data` started at node `i` with
enough fuel: the pass keeps the arena shape, installs the subtree sum in
every bucket of every node of `i`'s subtree, and leaves all other counters
unchanged (provided `i`'s subtree still holds its original counters). -/
theorem summarizeNode_spec {ns : List HistoNode} (hwf : WF ns) :
    ∀ (fuel : ℕ) (i : ℕ), i < ns.length → ns.length ≤ i + fuel →
    ∀ (acc : List HistoNode), SameShape ns acc →
    (∀ v ∈ descList fuel ns i, dataAt acc v = dataAt ns v) →
    SameShape ns (summarizeNode fuel acc i) ∧
    (∀ k, k ∉ descList fuel ns i →
      dataAt (summarizeNode fuel acc i) k = dataAt acc k) ∧
    (∀ v ∈ descList fuel ns i, ∀ b, b < 8 →
      (dataAt (summarizeNode fuel acc i) v).getD b 0 = subSum ns v b) := by
  intro fuel
  induction fuel with
  | zero =>
    intro i hi hlen
    omega
  | succ f ih =>
    intro i hi hlen acc hS hData
    have hchacc : (nodeAt acc i).children = (nodeAt ns i).children := (hS.2 i).1
    have hcs : summarizeNode (f + 1) acc i
        = ((nodeAt ns i).children.map Prod.snd).foldl (sumStep f i) acc := by
      rw [summarizeNode_succ, hchacc]
    have hmem : ∀ c ∈ (nodeAt ns i).children.map Prod.snd,
        ∃ nm, (nm, c) ∈ (nodeAt ns i).children := by
      intro c hc
      obtain ⟨e, he, hec⟩ := List.mem_map.mp hc
      exact ⟨e.1, by rw [← hec]; exact he⟩
    have hnd := children_snd_nodup hwf hi
    have hDataD : ∀ c ∈ (nodeAt ns i).children.map Prod.snd,
        ∀ v ∈ descs ns c, dataAt acc v = dataAt ns v := by
      intro c hc v hv
      obtain ⟨e, he, hec⟩ := List.mem_map.mp hc
      subst hec
      obtain ⟨h1, h2, _, _⟩ := hwf.2.2.2.1 i hi e he
      apply hData
      rw [descList]
      refine List.mem_cons.mpr (Or.inr (List.mem_flatMap.mpr
        ⟨e.2, List.mem_map.mpr ⟨e, he, rfl⟩, ?_⟩))
      rw [descList_eq_descs hwf f e.2 h2 (by omega)]
      exact hv
    obtain ⟨hSr, hVr, hSumr, hFrr⟩ := summarizeFold_spec hwf hi ih
      ((nodeAt ns i).children.map Prod.snd) hmem hnd (by omega) acc hS hDataD
    rw [hcs]
    refine ⟨hSr, ?_, ?_⟩
    · intro k hk
      rw [descList] at hk
      have hki : k ≠ i := fun h => hk (h ▸ List.mem_cons_self _ _)
      have hknot : ∀ c ∈ (nodeAt ns i).children.map Prod.snd,
          k ∉ descs ns c := by
        intro c hc hkc
        obtain ⟨e, he, hec⟩ := List.mem_map.mp hc
        subst hec
        obtain ⟨h1, h2, _, _⟩ := hwf.2.2.2.1 i hi e he
        apply hk
        refine List.mem_cons.mpr (Or.inr (List.mem_flatMap.mpr
          ⟨e.2, List.mem_map.mpr ⟨e, he, rfl⟩, ?_⟩))
        rw [descList_eq_descs hwf f e.2 h2 (by omega)]
        exact hkc
      exact hFrr k hki hknot
    · intro v hv b hb
      rw [descList] at hv
      rcases List.mem_cons.mp hv with h | h
      · subst h
        rw [hSumr b hb, subSum_unfold hwf hi b,
          hData v (descList_head_mem _ _ _)]
      · obtain ⟨c, hc, hvc⟩ := List.mem_flatMap.mp h
        obtain ⟨e, he, hec⟩ := List.mem_map.mp hc
        subst hec
        obtain ⟨h1, h2, _, _⟩ := hwf.2.2.2.1 i hi e he
        refine hVr e.2 (List.mem_map.mpr ⟨e, he, rfl⟩) v ?_ b hb
        rw [← descList_eq_descs hwf f e.2 h2 (by omega)]
        exact hvc

/-- **C1**: after the aggregation pass `summarize_histo_data`, every node's
counter in every bucket equals the sum of the pre-aggregation counters in
that bucket over the node itself and all of its descendants. -/
theorem C1_aggregate_subtree_sums (t : HistoTree) (hwf : WF t.nodes)
    (v b : ℕ) (hv : v < t.nodes.length) (hb : b < 8) :
    (dataAt t.summarize.nodes v).getD b 0
      = ((descs t.nodes v).map (fun j => (dataAt t.nodes j).getD b 0)).sum := by
  have h := summarizeNode_spec hwf (t.nodes.length + 1) 0 hwf.1 (by omega)
    t.nodes (sameShape_refl t.nodes) (fun _ _ => rfl)
  have hv0 : v ∈ descList (t.nodes.length + 1) t.nodes 0 := by
    rw [descList_eq_descs hwf (t.nodes.length + 1) 0 hwf.1 (by omega)]
    exact mem_descs_root hwf (v + 1) v (by omega) hv
  exact h.2.2 v hv0 b hb

/-- Witness for C1 on the three-node example tree after the three recorded
ages, at the node for `./ROOT/a` and the catch-all bucket. -/
theorem C1_aggregate_subtree_sums_witness :
    (WF exTree3.nodes ∧ 1 < exTree3.nodes.length ∧ 7 < 8) ∧
    (dataAt exTree3.summarize.nodes 1).getD 7 0
      = ((descs exTree3.nodes 1).map
          (fun j => (dataAt exTree3.nodes j).getD 7 0)).sum :=
  ⟨⟨by decide, by decide, by decide⟩,
    C1_aggregate_subtree_sums exTree3 (by decide) 1 7 (by decide) (by decide)⟩

/-- Strict lexicographic order is irreflexive. -/
theorem charsLt_irrefl : ∀ l : List Char, charsLt l l = false := by
  intro l
  induction l with
  | nil => rfl
  | cons c cs ih =>
    rw [charsLt, if_neg (lt_irrefl c), if_pos rfl]
    exact ih

/-- Strict lexicographic order is asymmetric. -/
theorem charsLt_asymm : ∀ (a b : List Char), charsLt a b = true →
    charsLt b a = false := by
  intro a
  induction a with
  | nil =>
    intro b h
    cases b with
    | nil => exact Bool.noConfusion h
    | cons d ds => rfl
  | cons c cs ih =>
    intro b h
    cases b with
    | nil => exact Bool.noConfusion h
    | cons d ds =>
      rw [charsLt] at h ⊢
      by_cases hcd : c < d
      · rw [if_neg (lt_asymm hcd), if_neg (ne_of_gt hcd)]
      · rw [if_neg hcd] at h
        by_cases hce : c = d
        · subst hce
          rw [if_pos rfl] at h
          rw [if_neg hcd, if_pos rfl]
          exact ih ds h
        · rw [if_neg hce] at h
          exact Bool.noConfusion h

/-- Strict lexicographic order is total on distinct lists. -/
theorem charsLt_total : ∀ (a b : List Char), charsLt a b = false → a ≠ b →
    charsLt b a = true := by
  intro a
  induction a with
  | nil =>
    intro b h hne
    cases b with
    | nil => exact absurd rfl hne
    | cons d ds => exact Bool.noConfusion h
  | cons c cs ih =>
    intro b h hne
    cases b with
    | nil => rfl
    | cons d ds =>
      rw [charsLt] at h ⊢
      by_cases hcd : c < d
      · rw [if_pos hcd] at h
        exact Bool.noConfusion h
      · rw [if_neg hcd] at h
        by_cases hce : c = d
        · subst hce
          rw [if_pos rfl] at h
          rw [if_neg hcd, if_pos rfl]
          exact ih ds h (fun hh => hne (by rw [hh]))
        · have hdc : d < c := by
            rcases lt_trichotomy c d with h1 | h1 | h1
            · exact absurd h1 hcd
            · exact absurd h1 hce
            · exact h1
          rw [if_pos hdc]

/-- Strict lexicographic order is transitive. -/
theorem charsLt_trans : ∀ (a b c : List Char), charsLt a b = true →
    charsLt b c = true → charsLt a c = true := by
  intro a
  induction a with
  | nil =>
    intro b c h1 h2
    cases b with
    | nil => exact Bool.noConfusion h1
    | cons d ds =>
      cases c with
      | nil => exact Bool.noConfusion h2
      | cons e es => rfl
  | cons x xs ih =>
    intro b c h1 h2
    cases b with
    | nil => exact Bool.noConfusion h1
    | cons d ds =>
      cases c with
      | nil => exact Bool.noConfusion h2
      | cons e es =>
        rw [charsLt] at h1 h2 ⊢
        by_cases hxd : x < d
        · by_cases hde : d < e
          · rw [if_pos (lt_trans hxd hde)]
          · rw [if_neg hde] at h2
            by_cases hdee : d = e
            · subst hdee
              rw [if_pos hxd]
            · rw [if_neg hdee] at h2
              exact Bool.noConfusion h2
        · rw [if_neg hxd] at h1
          by_cases hxde : x = d
          · subst hxde
            rw [if_pos rfl] at h1
            by_cases hxe : x < e
            · rw [if_pos hxe]
            · rw [if_neg hxe] at h2 ⊢
              by_cases hxee : x = e
              · subst hxee
                rw [if_pos rfl] at h2 ⊢
                exact ih ds es h1 h2
              · rw [if_neg hxee] at h2
                exact Bool.noConfusion h2
          · rw [if_neg hxde] at h1
            exact Bool.noConfusion h1

/-- `keyLt` is irreflexive. -/
theorem keyLt_irrefl (a : String) : keyLt a a = false := charsLt_irrefl a.data

/-- `keyLt` is asymmetric. -/
theorem keyLt_asymm {a b : String} (h : keyLt a b = true) :
    keyLt b a = false := charsLt_asymm a.data b.data h

/-- `keyLt` is total on distinct strings. -/
theorem keyLt_total {a b : String} (h : keyLt a b = false) (hne : a ≠ b) :
    keyLt b a = true :=
  charsLt_total a.data b.data h (fun hd => hne (String.ext hd))

/-- `keyLt` is transitive. -/
theorem keyLt_trans {a b c : String} (h1 : keyLt a b = true)
    (h2 : keyLt b c = true) : keyLt a c = true :=
  charsLt_trans a.data b.data c.data h1 h2

/-- `keyLe` is transitive. -/
theorem keyLe_trans {a b c : String} (h1 : keyLe a b = true)
    (h2 : keyLe b c = true) : keyLe a c = true := by
  rw [keyLe, Bool.or_eq_true] at h1 h2 ⊢
  rcases h1 with h1 | h1
  · rcases h2 with h2 | h2
    · exact Or.inl (keyLt_trans h1 h2)
    · have hb : b = c := eq_of_beq h2
      subst hb
      exact Or.inl h1
  · have ha : a = b := eq_of_beq h1
    subst ha
    exact h2.imp id id

/-- If `keyLe` fails one way it holds the other way. -/
theorem keyLe_flip {a b : String} (h : keyLe a b = false) :
    keyLe b a = true := by
  rw [keyLe, Bool.or_eq_false_iff] at h
  have hne : a ≠ b := by
    intro hh
    rw [hh] at h
    simp at h
  rw [keyLe, Bool.or_eq_true]
  exact Or.inl (keyLt_total h.1 hne)

/-- Membership through `insertSorted`. -/
theorem mem_insertSorted (s x : String) :
    ∀ l, x ∈ insertSorted s l ↔ x = s ∨ x ∈ l := by
  intro l
  induction l with
  | nil => simp [insertSorted]
  | cons y ys ih =>
    rw [insertSorted]
    by_cases h : keyLe s y = true
    · rw [if_pos h]
      simp only [List.mem_cons]
    · rw [if_neg h]
      simp only [List.mem_cons, ih]
      tauto

/-- Membership through `sortKeys`. -/
theorem mem_sortKeys (x : String) : ∀ l, x ∈ sortKeys l ↔ x ∈ l := by
  intro l
  induction l with
  | nil => simp [sortKeys]
  | cons y ys ih =>
    rw [sortKeys, mem_insertSorted]
    simp only [List.mem_cons, ih]

/-- `insertSorted` preserves duplicate-freedom. -/
theorem nodup_insertSorted (s : String) :
    ∀ l, s ∉ l → l.Nodup → (insertSorted s l).Nodup := by
  intro l
  induction l with
  | nil => intro _ _; simp [insertSorted]
  | cons y ys ih =>
    intro hs hnd
    rw [insertSorted]
    rw [List.nodup_cons] at hnd
    by_cases h : keyLe s y = true
    · rw [if_pos h, List.nodup_cons, List.nodup_cons]
      exact ⟨hs, hnd⟩
    · rw [if_neg h, List.nodup_cons]
      refine ⟨?_, ih (fun hm => hs (List.mem_cons_of_mem y hm)) hnd.2⟩
      intro hm
      rcases (mem_insertSorted s y ys).mp hm with h1 | h1
      · exact hs (h1 ▸ List.mem_cons_self y ys)
      · exact hnd.1 h1

/-- `sortKeys` preserves duplicate-freedom. -/
theorem nodup_sortKeys : ∀ l : List String, l.Nodup → (sortKeys l).Nodup := by
  intro l
  induction l with
  | nil => intro _; simp [sortKeys]
  | cons y ys ih =>
    intro hnd
    rw [List.nodup_cons] at hnd
    exact nodup_insertSorted y (sortKeys ys)
      (fun hm => hnd.1 ((mem_sortKeys y ys).mp hm)) (ih hnd.2)

/-- `insertSorted` preserves sortedness. -/
theorem pairwise_insertSorted (s : String) :
    ∀ l, l.Pairwise (fun a b => keyLe a b = true) →
    (insertSorted s l).Pairwise (fun a b => keyLe a b = true) := by
  intro l
  induction l with
  | nil => intro _; simp [insertSorted]
  | cons y ys ih =>
    intro hp
    rw [List.pairwise_cons] at hp
    rw [insertSorted]
    by_cases h : keyLe s y = true
    · rw [if_pos h, List.pairwise_cons]
      refine ⟨?_, List.pairwise_cons.mpr hp⟩
      intro z hz
      rcases List.mem_cons.mp hz with h1 | h1
      · rw [h1]
        exact h
      · exact keyLe_trans h (hp.1 z h1)
    · rw [if_neg h, List.pairwise_cons]
      refine ⟨?_, ih hp.2⟩
      intro z hz
      rcases (mem_insertSorted s z ys).mp hz with h1 | h1
      · rw [h1]
        exact keyLe_flip (Bool.eq_false_iff.mpr h)
      · exact hp.1 z h1

/-- The sorted key list is sorted. -/
theorem pairwise_sortKeys :
    ∀ l : List String, (sortKeys l).Pairwise (fun a b => keyLe a b = true) := by
  intro l
  induction l with
  | nil => simp [sortKeys]
  | cons y ys ih => exact pairwise_insertSorted y (sortKeys ys) ih

/-- In a sorted list a strictly smaller member occurs before a strictly
larger one. -/
theorem sublist_pair_of_sorted :
    ∀ (l : List String), l.Pairwise (fun a b => keyLe a b = true) →
    ∀ a ∈ l, ∀ b ∈ l, keyLt a b = true → List.Sublist [a, b] l := by
  intro l
  induction l with
  | nil =>
    intro _ a ha
    exact absurd ha (List.not_mem_nil a)
  | cons x xs ih =>
    intro hp a ha b hb hab
    rw [List.pairwise_cons] at hp
    rcases List.mem_cons.mp ha with h1 | h1
    · subst h1
      rcases List.mem_cons.mp hb with h2 | h2
      · subst h2
        rw [keyLt_irrefl] at hab
        exact Bool.noConfusion hab
      · exact List.Sublist.cons₂ _ (List.singleton_sublist.mpr h2)
    · rcases List.mem_cons.mp hb with h2 | h2
      · subst h2
        have h3 := hp.1 a h1
        have h4 : keyLt b a = false := keyLt_asymm hab
        have h5 : (b == a) = false := by
          by_cases hxa : b = a
          · exfalso
            rw [hxa, keyLt_irrefl] at hab
            exact Bool.noConfusion hab
          · exact beq_eq_false_iff_ne.mpr hxa
        rw [keyLe, h4, h5] at h3
        exact Bool.noConfusion h3
      · exact List.Sublist.cons _ (ih hp.2 a h1 b h2 hab)

/-- Fuel of at least the node index is enough for the depth computation. -/
theorem depthAux_stable {ns : List HistoNode} (hwf : WF ns) :
    ∀ (n j : ℕ), j < n → j < ns.length → ∀ f, j ≤ f →
    depthAux f ns j = depth ns j := by
  intro n
  induction n with
  | zero => intro j h; omega
  | succ m ih =>
    intro j hj hjlen f hf
    cases hpar : (nodeAt ns j).parent with
    | none =>
      cases f with
      | zero =>
        cases j with
        | zero => rfl
        | succ k => omega
      | succ f2 =>
        simp only [depthAux, hpar]
        cases j with
        | zero => rfl
        | succ k =>
          simp only [depth, depthAux, hpar]
    | some q =>
      obtain ⟨hqj, hqlen⟩ := parent_lt hwf hjlen hpar
      obtain ⟨f2, rfl⟩ : ∃ k, f = k + 1 := ⟨f - 1, by omega⟩
      obtain ⟨j2, rfl⟩ : ∃ k, j = k + 1 := ⟨j - 1, by omega⟩
      simp only [depth, depthAux, hpar]
      rw [ih q (by omega) hqlen f2 (by omega), ih q (by omega) hqlen j2 (by omega)]

/-- The root sits at depth zero. -/
theorem depth_zero (ns : List HistoNode) : depth ns 0 = 0 := rfl

/-- A child is one level deeper than its parent. -/
theorem depth_child {ns : List HistoNode} (hwf : WF ns) {v p : ℕ}
    (hv : v < ns.length) (hpar : (nodeAt ns v).parent = some p) :
    depth ns v = depth ns p + 1 := by
  obtain ⟨hpv, hplen⟩ := parent_lt hwf hv hpar
  obtain ⟨v2, rfl⟩ : ∃ k, v = k + 1 := ⟨v - 1, by omega⟩
  simp only [depth, depthAux, hpar]
  rw [depthAux_stable hwf (p + 1) p (by omega) hplen v2 (by omega)]
  rfl

/-- Depth is bounded by the node index. -/
theorem depth_le {ns : List HistoNode} (hwf : WF ns) :
    ∀ (n v : ℕ), v < n → v < ns.length → depth ns v ≤ v := by
  intro n
  induction n with
  | zero => intro v h; omega
  | succ m ih =>
    intro v hv hvlen
    cases hpar : (nodeAt ns v).parent with
    | none =>
      have h0 : v = 0 := (parent_none_iff hwf hvlen).mp hpar
      subst h0
      simp [depth_zero]
    | some q =>
      obtain ⟨hqv, hqlen⟩ := parent_lt hwf hvlen hpar
      rw [depth_child hwf hvlen hpar]
      have := ih q (by omega) hqlen
      omega

/-- Under distinct keys, a stored binding is what `lookup` returns. -/
theorem lookup_eq_some_of_mem {l : List (String × ℕ)}
    (hnd : (l.map Prod.fst).Nodup) {k : String} {v : ℕ}
    (h : (k, v) ∈ l) : l.lookup k = some v := by
  induction l with
  | nil => exact absurd h (List.not_mem_nil _)
  | cons e rest ih =>
    rw [List.map_cons, List.nodup_cons] at hnd
    rcases List.mem_cons.mp h with h1 | h1
    · rw [← h1]
      exact lookup_cons_eq k v rest
    · obtain ⟨k2, v2⟩ := e
      have hk : k ≠ k2 := by
        intro hh
        subst hh
        exact hnd.1 (List.mem_map.mpr ⟨(k, v), h1, rfl⟩)
      rw [lookup_cons_ne hk]
      exact ih hnd.2 h1

/-- The members of `sortedChildIds` are exactly the child indices. -/
theorem mem_sortedChildIds {ns : List HistoNode} (hwf : WF ns) {i : ℕ}
    (hi : i < ns.length) {v : ℕ} :
    v ∈ sortedChildIds ns i ↔ ∃ nm, (nm, v) ∈ (nodeAt ns i).children := by
  constructor
  · intro h
    obtain ⟨s, hs, hlk⟩ := List.mem_filterMap.mp h
    exact ⟨s, lookup_mem hlk⟩
  · rintro ⟨nm, hm⟩
    refine List.mem_filterMap.mpr ⟨nm, ?_, ?_⟩
    · unfold childKeysSorted
      rw [mem_sortKeys]
      exact List.mem_map.mpr ⟨(nm, v), hm, rfl⟩
    · exact lookup_eq_some_of_mem (hwf.2.2.2.2.2.1 i hi) hm

/-- Facts about a member of `sortedChildIds`. -/
theorem sortedChildIds_parent {ns : List HistoNode} (hwf : WF ns) {i : ℕ}
    (hi : i < ns.length) {v : ℕ} (h : v ∈ sortedChildIds ns i) :
    (nodeAt ns v).parent = some i ∧ i < v ∧ v < ns.length := by
  obtain ⟨nm, hm⟩ := (mem_sortedChildIds hwf hi).mp h
  obtain ⟨h1, h2, h3, _⟩ := hwf.2.2.2.1 i hi (nm, v) hm
  exact ⟨h3, h1, h2⟩

/-- `filterMap` of a duplicate-free list along a function injective on
produced values is duplicate-free. -/
theorem nodup_filterMap {α β : Type} {l : List α} {f : α → Option β}
    (hnd : l.Nodup)
    (hinj : ∀ a ∈ l, ∀ b ∈ l, ∀ c, f a = some c → f b = some c → a = b) :
    (l.filterMap f).Nodup := by
  induction l with
  | nil => simp
  | cons x xs ih =>
    rw [List.nodup_cons] at hnd
    rw [List.filterMap_cons]
    have hrec := ih hnd.2 (fun a ha b hb c h1 h2 =>
      hinj a (List.mem_cons_of_mem x ha) b (List.mem_cons_of_mem x hb) c h1 h2)
    cases hfx : f x with
    | none => exact hrec
    | some c =>
      rw [List.nodup_cons]
      refine ⟨?_, hrec⟩
      intro hmem
      obtain ⟨a, ha, hfa⟩ := List.mem_filterMap.mp hmem
      have hax : a = x := hinj a (List.mem_cons_of_mem x ha) x
        (List.mem_cons_self x xs) c hfa hfx
      subst hax
      exact hnd.1 ha

/-- The sorted child list of a well-formed node has no duplicates. -/
theorem nodup_sortedChildIds {ns : List HistoNode} (hwf : WF ns) {i : ℕ}
    (hi : i < ns.length) : (sortedChildIds ns i).Nodup := by
  unfold sortedChildIds
  apply nodup_filterMap
  · exact nodup_sortKeys _ (hwf.2.2.2.2.2.1 i hi)
  · intro s1 hs1 s2 hs2 c h1 h2
    obtain ⟨_, _, _, hn1⟩ := hwf.2.2.2.1 i hi (s1, c) (lookup_mem h1)
    obtain ⟨_, _, _, hn2⟩ := hwf.2.2.2.1 i hi (s2, c) (lookup_mem h2)
    have hn1b : (nodeAt ns c).name = s1 := hn1
    have hn2b : (nodeAt ns c).name = s2 := hn2
    rw [← hn1b, ← hn2b]

/-- `flatMap` of duplicate-free, pairwise-disjoint pieces over a
duplicate-free list is duplicate-free. -/
theorem nodup_flatMap {α β : Type} {l : List α} {f : α → List β}
    (hl : l.Nodup) (h1 : ∀ a ∈ l, (f a).Nodup)
    (h2 : ∀ a ∈ l, ∀ b ∈ l, a ≠ b → ∀ v ∈ f a, v ∉ f b) :
    (l.flatMap f).Nodup := by
  induction l with
  | nil => simp
  | cons x xs ih =>
    rw [List.nodup_cons] at hl
    rw [List.flatMap_cons, List.nodup_append]
    refine ⟨h1 x (List.mem_cons_self x xs),
      ih hl.2 (fun a ha => h1 a (List.mem_cons_of_mem x ha))
        (fun a ha b hb => h2 a (List.mem_cons_of_mem x ha) b
          (List.mem_cons_of_mem x hb)), ?_⟩
    intro v hv hv2
    obtain ⟨b, hb, hvb⟩ := List.mem_flatMap.mp hv2
    have hne : x ≠ b := fun hh => hl.1 (hh ▸ hb)
    exact h2 x (List.mem_cons_self x xs) b (List.mem_cons_of_mem x hb) hne v hv hvb

/-- Members of level `k` are exactly at depth `k` (and in range). -/
theorem mem_lvl_spec {ns : List HistoNode} (hwf : WF ns) :
    ∀ k, ∀ v ∈ lvl ns k, v < ns.length ∧ depth ns v = k := by
  intro k
  induction k with
  | zero =>
    intro v hv
    simp [lvl] at hv
    subst hv
    exact ⟨hwf.1, depth_zero ns⟩
  | succ m ih =>
    intro v hv
    rw [lvl] at hv
    obtain ⟨p, hp, hvp⟩ := List.mem_flatMap.mp hv
    obtain ⟨hplen, hpd⟩ := ih p hp
    obtain ⟨hpar, hpv, hvlen⟩ := sortedChildIds_parent hwf hplen hvp
    exact ⟨hvlen, by rw [depth_child hwf hvlen hpar, hpd]⟩

/-- Every node appears in the level of its depth. -/
theorem mem_lvl_of_depth {ns : List HistoNode} (hwf : WF ns) :
    ∀ (n v : ℕ), v < n → v < ns.length → v ∈ lvl ns (depth ns v) := by
  intro n
  induction n with
  | zero => intro v h; omega
  | succ m ih =>
    intro v hv hvlen
    by_cases h0 : v = 0
    · subst h0
      simp [depth_zero, lvl]
    · obtain ⟨p, hp, hpar, hm⟩ := hwf.2.2.2.2.1 v hvlen (Nat.pos_of_ne_zero h0)
      rw [depth_child hwf hvlen hpar, lvl]
      refine List.mem_flatMap.mpr ⟨p, ih p (by omega) (by omega), ?_⟩
      exact (mem_sortedChildIds hwf (by omega)).mpr ⟨(nodeAt ns v).name, hm⟩

/-- Every level is duplicate-free. -/
theorem nodup_lvl {ns : List HistoNode} (hwf : WF ns) :
    ∀ k, (lvl ns k).Nodup := by
  intro k
  induction k with
  | zero => simp [lvl]
  | succ m ih =>
    rw [lvl]
    refine nodup_flatMap ih ?_ ?_
    · intro p hp
      exact nodup_sortedChildIds hwf (mem_lvl_spec hwf m p hp).1
    · intro p hp q hq hpq v hvp hvq
      have ha := (sortedChildIds_parent hwf (mem_lvl_spec hwf m p hp).1 hvp).1
      have hb := (sortedChildIds_parent hwf (mem_lvl_spec hwf m q hq).1 hvq).1
      rw [ha] at hb
      injection hb with hc
      exact hpq hc

/-- Processing an initial segment of the queue: the traversal emits the
segment and appends its children (in sorted-key order) at the back. -/
theorem bfs_split (ns : List HistoNode) :
    ∀ (q : List ℕ) (f : ℕ) (r : List ℕ),
    bfs ns (q.length + f) (q ++ r)
      = q ++ bfs ns f (r ++ q.flatMap (sortedChildIds ns)) := by
  intro q
  induction q with
  | nil =>
    intro f r
    simp
  | cons i q2 ih =>
    intro f r
    have hlen : (i :: q2).length + f = q2.length + f + 1 := by
      rw [List.length_cons]
      omega
    rw [hlen, List.cons_append, bfs]
    have h2 : q2 ++ r ++ sortedChildIds ns i = q2 ++ (r ++ sortedChildIds ns i) :=
      List.append_assoc q2 r _
    rw [h2, ih f (r ++ sortedChildIds ns i), List.flatMap_cons, List.cons_append,
      List.append_assoc]

/-- Consuming exactly one breadth-first level. -/
theorem bfs_one_level (ns : List HistoNode) (k F : ℕ) :
    bfs ns ((lvl ns k).length + F) (lvl ns k)
      = lvl ns k ++ bfs ns F (lvl ns (k + 1)) := by
  have h := bfs_split ns (lvl ns k) F []
  rw [List.append_nil, List.nil_append] at h
  exact h

/-- Consuming `m` consecutive breadth-first levels. -/
theorem bfs_levels (ns : List HistoNode) :
    ∀ (m k f : ℕ),
    bfs ns (((List.range m).map (fun j => (lvl ns (k + j)).length)).sum + f)
        (lvl ns k)
      = (List.range m).flatMap (fun j => lvl ns (k + j))
        ++ bfs ns f (lvl ns (k + m)) := by
  intro m
  induction m with
  | zero =>
    intro k f
    simp
  | succ m2 ih =>
    intro k f
    have hsum : ((List.range (m2 + 1)).map (fun j => (lvl ns (k + j)).length)).sum
        = ((List.range m2).map (fun j => (lvl ns (k + j)).length)).sum
          + (lvl ns (k + m2)).length := by
      rw [List.range_succ, List.map_append, List.sum_append, List.map_cons,
        List.map_nil, List.sum_cons, List.sum_nil]
      omega
    rw [hsum, Nat.add_assoc, ih k ((lvl ns (k + m2)).length + f),
      bfs_one_level ns (k + m2) f]
    rw [List.range_succ, List.flatMap_append]
    have h3 : [m2].flatMap (fun j => lvl ns (k + j)) = lvl ns (k + m2) := by
      simp
    rw [h3, List.append_assoc]
    rfl

/-- The concatenation of all levels is a permutation of all node
indices. -/
theorem lvls_perm_range {ns : List HistoNode} (hwf : WF ns) :
    ((List.range ns.length).flatMap (lvl ns)).Perm (List.range ns.length) := by
  have hnd : ((List.range ns.length).flatMap (lvl ns)).Nodup := by
    refine nodup_flatMap (List.nodup_range _) ?_ ?_
    · intro d hd
      exact nodup_lvl hwf d
    · intro d1 h1 d2 h2 hne v hv1 hv2
      have e1 := (mem_lvl_spec hwf d1 v hv1).2
      have e2 := (mem_lvl_spec hwf d2 v hv2).2
      exact hne (by rw [← e1, ← e2])
  have hmem : ∀ a, a ∈ (List.range ns.length).flatMap (lvl ns) ↔ a < ns.length := by
    intro a
    constructor
    · intro h
      obtain ⟨d, hd, had⟩ := List.mem_flatMap.mp h
      exact (mem_lvl_spec hwf d a had).1
    · intro h
      refine List.mem_flatMap.mpr
        ⟨depth ns a, ?_, mem_lvl_of_depth hwf (a + 1) a (by omega) h⟩
      rw [List.mem_range]
      have := depth_le hwf (a + 1) a (by omega) h
      omega
  apply List.perm_iff_count.mpr
  intro a
  by_cases ha : a < ns.length
  · rw [List.count_eq_one_of_mem hnd ((hmem a).mpr ha),
      List.count_eq_one_of_mem (List.nodup_range _) (List.mem_range.mpr ha)]
  · rw [List.count_eq_zero_of_not_mem (fun hh => ha ((hmem a).mp hh)),
      List.count_eq_zero_of_not_mem (fun hh => ha (List.mem_range.mp hh))]

/-- The emitted breadth-first sequence is exactly the concatenation of the
levels, shallowest first. -/
theorem traverseIds_eq_lvls {t : HistoTree} (hwf : WF t.nodes) :
    t.traverseIds = (List.range t.nodes.length).flatMap (lvl t.nodes) := by
  have hfun : (fun j => lvl t.nodes (0 + j)) = lvl t.nodes := by
    funext j
    rw [Nat.zero_add]
  have hsum : ((List.range t.nodes.length).map
      (fun j => (lvl t.nodes (0 + j)).length)).sum = t.nodes.length := by
    have h1 : (fun j => (lvl t.nodes (0 + j)).length)
        = (List.length ∘ lvl t.nodes) := by
      funext j
      rw [Nat.zero_add]
      rfl
    rw [h1, ← List.length_flatMap, (lvls_perm_range hwf).length_eq,
      List.length_range]
  have hdec := bfs_levels t.nodes t.nodes.length 0 0
  rw [hsum, Nat.add_zero, hfun] at hdec
  rw [show bfs t.nodes 0 (lvl t.nodes (0 + t.nodes.length)) = [] from rfl,
    List.append_nil] at hdec
  exact hdec

/-- Each level sits as a contiguous block inside the level
concatenation. -/
theorem lvl_isInfix_lvls {ns : List HistoNode} {k : ℕ} (hk : k < ns.length) :
    List.IsInfix (lvl ns k) ((List.range ns.length).flatMap (lvl ns)) := by
  obtain ⟨s, t2, hst⟩ := List.append_of_mem (List.mem_range.mpr hk)
  refine ⟨s.flatMap (lvl ns), t2.flatMap (lvl ns), ?_⟩
  rw [hst, List.flatMap_append, List.flatMap_cons, List.append_assoc]

/-- Each level is a subsequence of the emitted traversal. -/
theorem lvl_sublist_traverse {t : HistoTree} (hwf : WF t.nodes) {k : ℕ}
    (hk : k < t.nodes.length) : (lvl t.nodes k).Sublist t.traverseIds := by
  rw [traverseIds_eq_lvls hwf]
  exact (lvl_isInfix_lvls hk).sublist

/-- A member of a shallower level is emitted before a member of a deeper
level. -/
theorem sublist_pair_lvls {t : HistoTree} (hwf : WF t.nodes) {d1 d2 a b : ℕ}
    (h12 : d1 < d2) (hd2 : d2 < t.nodes.length)
    (ha : a ∈ lvl t.nodes d1) (hb : b ∈ lvl t.nodes d2) :
    List.Sublist [a, b] t.traverseIds := by
  rw [traverseIds_eq_lvls hwf]
  have hsplit : t.nodes.length = d2 + (t.nodes.length - d2) := by omega
  rw [hsplit, List.range_add, List.flatMap_append]
  have h1 : List.Sublist [a] ((List.range d2).flatMap (lvl t.nodes)) := by
    rw [List.singleton_sublist]
    exact List.mem_flatMap.mpr ⟨d1, List.mem_range.mpr h12, ha⟩
  have h2 : List.Sublist [b]
      (((List.range (t.nodes.length - d2)).map
        (fun x => d2 + x)).flatMap (lvl t.nodes)) := by
    rw [List.singleton_sublist]
    refine List.mem_flatMap.mpr ⟨d2, ?_, hb⟩
    refine List.mem_map.mpr ⟨0, ?_, ?_⟩
    · rw [List.mem_range]
      omega
    · omega
  exact List.Sublist.append h1 h2

/-- **C4**: for every well-formed tree - hence for every tree built by any
insertion order - the traversal of `traverse_start`/`traverse_next` emits
the root first, emits every node exactly once (only real nodes), emits
every node strictly before each of its children, and emits the children of
any node in ascending lexicographic name order. -/
theorem C4_breadth_first_order (t : HistoTree) (hwf : WF t.nodes) :
    t.traverseIds.head? = some 0 ∧
    (∀ v, v < t.nodes.length → List.count v t.traverseIds = 1) ∧
    (∀ x ∈ t.traverseIds, x < t.nodes.length) ∧
    (∀ p, p < t.nodes.length → ∀ e ∈ (nodeAt t.nodes p).children,
      List.Sublist [p, e.2] t.traverseIds) ∧
    (∀ p, p < t.nodes.length → ∀ e1 ∈ (nodeAt t.nodes p).children,
      ∀ e2 ∈ (nodeAt t.nodes p).children, keyLt e1.1 e2.1 = true →
      List.Sublist [e1.2, e2.2] t.traverseIds) := by
  refine ⟨?_, ?_, ?_, ?_, ?_⟩
  · -- root first
    rw [traverseIds_eq_lvls hwf]
    obtain ⟨L, hL⟩ : ∃ L, t.nodes.length = L + 1 := ⟨t.nodes.length - 1, by
      have := hwf.1
      omega⟩
    rw [hL, List.range_succ_eq_map, List.flatMap_cons]
    rfl
  · -- every node exactly once
    intro v hv
    rw [traverseIds_eq_lvls hwf, (lvls_perm_range hwf).count_eq v]
    exact List.count_eq_one_of_mem (List.nodup_range _) (List.mem_range.mpr hv)
  · -- only real nodes
    intro x hx
    rw [traverseIds_eq_lvls hwf] at hx
    obtain ⟨d, hd, hxd⟩ := List.mem_flatMap.mp hx
    exact (mem_lvl_spec hwf d x hxd).1
  · -- parent before child
    intro p hp e he
    obtain ⟨hpe, helen, hpar, _⟩ := hwf.2.2.2.1 p hp e he
    have hpar2 : (nodeAt t.nodes e.2).parent = some p := hpar
    have hdc : depth t.nodes e.2 = depth t.nodes p + 1 :=
      depth_child hwf helen hpar2
    have hdlt : depth t.nodes p + 1 < t.nodes.length := by
      have h1 := depth_le hwf (e.2 + 1) e.2 (by omega) helen
      omega
    have ha : p ∈ lvl t.nodes (depth t.nodes p) :=
      mem_lvl_of_depth hwf (p + 1) p (by omega) hp
    have hb : e.2 ∈ lvl t.nodes (depth t.nodes p + 1) := by
      rw [← hdc]
      exact mem_lvl_of_depth hwf (e.2 + 1) e.2 (by omega) helen
    exact sublist_pair_lvls hwf (by omega) hdlt ha hb
  · -- siblings in ascending name order
    intro p hp e1 he1 e2 he2 hlt
    obtain ⟨hpe1, he1len, hpar1, hnm1⟩ := hwf.2.2.2.1 p hp e1 he1
    obtain ⟨hpe2, he2len, hpar2, hnm2⟩ := hwf.2.2.2.1 p hp e2 he2
    have hkeys := hwf.2.2.2.2.2.1 p hp
    -- the two keys occur in this order in the sorted key list
    have hks : List.Sublist [e1.1, e2.1] (childKeysSorted (nodeAt t.nodes p)) := by
      apply sublist_pair_of_sorted _ (pairwise_sortKeys _)
      · rw [mem_sortKeys]
        exact List.mem_map.mpr ⟨e1, he1, rfl⟩
      · rw [mem_sortKeys]
        exact List.mem_map.mpr ⟨e2, he2, rfl⟩
      · exact hlt
    -- push the order through the lookup
    have hlk1 : (nodeAt t.nodes p).children.lookup e1.1 = some e1.2 :=
      lookup_eq_some_of_mem hkeys he1
    have hlk2 : (nodeAt t.nodes p).children.lookup e2.1 = some e2.2 :=
      lookup_eq_some_of_mem hkeys he2
    have hcomp : List.filterMap (fun s => (nodeAt t.nodes p).children.lookup s)
        [e1.1, e2.1] = [e1.2, e2.2] := by
      simp [List.filterMap_cons, hlk1, hlk2]
    have hsc : List.Sublist [e1.2, e2.2] (sortedChildIds t.nodes p) := by
      rw [← hcomp]
      exact List.Sublist.filterMap _ hks
    -- the sorted child block sits inside the next level
    have hpmem : p ∈ lvl t.nodes (depth t.nodes p) :=
      mem_lvl_of_depth hwf (p + 1) p (by omega) hp
    obtain ⟨s, t2, hst⟩ := List.append_of_mem hpmem
    have hblock : (sortedChildIds t.nodes p).Sublist
        (lvl t.nodes (depth t.nodes p + 1)) := by
      rw [lvl, hst, List.flatMap_append, List.flatMap_cons]
      exact List.IsInfix.sublist
        ⟨s.flatMap (sortedChildIds t.nodes), t2.flatMap (sortedChildIds t.nodes),
          by rw [List.append_assoc]⟩
    have hdlt : depth t.nodes p + 1 < t.nodes.length := by
      have hdc : depth t.nodes e1.2 = depth t.nodes p + 1 :=
        depth_child hwf he1len hpar1
      have h1 := depth_le hwf (e1.2 + 1) e1.2 (by omega) he1len
      omega
    exact (hsc.trans hblock).trans (lvl_sublist_traverse hwf hdlt)

/-- Witness for C4 on a tree whose two top-level children were inserted in
descending name order (`b` before `a`): the traversal still reports them
ascending. -/
theorem C4_breadth_first_order_witness :
    WF (buildTree ["./ROOT/b", "./ROOT/a/b"]).nodes ∧
    ((buildTree ["./ROOT/b", "./ROOT/a/b"]).traverseIds.head? = some 0 ∧
    (∀ v, v < (buildTree ["./ROOT/b", "./ROOT/a/b"]).nodes.length →
      List.count v (buildTree ["./ROOT/b", "./ROOT/a/b"]).traverseIds = 1) ∧
    (∀ x ∈ (buildTree ["./ROOT/b", "./ROOT/a/b"]).traverseIds,
      x < (buildTree ["./ROOT/b", "./ROOT/a/b"]).nodes.length) ∧
    (∀ p, p < (buildTree ["./ROOT/b", "./ROOT/a/b"]).nodes.length →
      ∀ e ∈ (nodeAt (buildTree ["./ROOT/b", "./ROOT/a/b"]).nodes p).children,
      List.Sublist [p, e.2] (buildTree ["./ROOT/b", "./ROOT/a/b"]).traverseIds) ∧
    (∀ p, p < (buildTree ["./ROOT/b", "./ROOT/a/b"]).nodes.length →
      ∀ e1 ∈ (nodeAt (buildTree ["./ROOT/b", "./ROOT/a/b"]).nodes p).children,
      ∀ e2 ∈ (nodeAt (buildTree ["./ROOT/b", "./ROOT/a/b"]).nodes p).children,
      keyLt e1.1 e2.1 = true →
      List.Sublist [e1.2, e2.2]
        (buildTree ["./ROOT/b", "./ROOT/a/b"]).traverseIds)) :=
  ⟨by decide, C4_breadth_first_order (buildTree ["./ROOT/b", "./ROOT/a/b"]) (by decide)⟩
